import Mathlib

set_option maxRecDepth 8192

/-!
Shallow embedding of the `LogBuffer` subsystem of
`src/custom/tools/setup-page.js` (lines 739-1187): a session-scoped bounded
in-memory log buffer with append-time sanitization, retention-based
eviction, and cursor-based incremental reads.

Modelling conventions:
* JavaScript strings are Lean `String`s / `List Char`; JS string `length`
  (UTF-16 code units) coincides with character count on the ASCII texts
  these claims concern.
* JavaScript numbers are modelled as `Nat`/`Int`; every quantity this
  subsystem computes (sequence numbers, counters, byte sizes) is an
  integer far below 2^53, where JS float arithmetic is exact.  JSON
  numbers are likewise modelled as integers; a fractional or exponent
  literal inside a cursor payload is outside the integer model and is
  treated as a parse failure.
* Wall-clock timestamps (`new Date().toISOString()`) are nondeterministic
  environment inputs; `append` and `read` take the timestamp string as an
  explicit parameter.
-/

namespace LogBufferModel

/-- JavaScript/JSON values (`null`, booleans, numbers, strings, arrays,
objects in key order). -/
inductive JVal where
  | null : JVal
  | bool : Bool → JVal
  | num : Int → JVal
  | str : String → JVal
  | arr : List JVal → JVal
  | obj : List (String × JVal) → JVal
deriving Repr, Inhabited

/-- JavaScript truthiness of a value. -/
def jsTruthy : JVal → Bool
  | .null => false
  | .bool b => b
  | .num n => n != 0
  | .str s => s != ""
  | .arr _ => true
  | .obj _ => true

/-- `typeof v === 'object'` in JavaScript (true for `null`, arrays and
plain objects). -/
def typeofIsObject : JVal → Bool
  | .null => true
  | .arr _ => true
  | .obj _ => true
  | _ => false

/-! ### Decimal digits (JS number-to-string for integers) -/

/-- Decimal digits of a natural number, accumulator form; structural on a
fuel that bounds the digit count (so the kernel can evaluate it). -/
def natDigitsF : Nat → Nat → List Char → List Char
  | 0, _, acc => acc
  | fuel + 1, n, acc =>
    if n < 10 then Char.ofNat (48 + n) :: acc
    else natDigitsF fuel (n / 10) (Char.ofNat (48 + n % 10) :: acc)

/-- Decimal digits of a natural number (JS `String(n)` for integral `n`);
`n + 1` fuel always suffices. -/
def natDigits (n : Nat) : List Char := natDigitsF (n + 1) n []

/-- JS decimal rendering of a natural number. -/
def natStr (n : Nat) : String := ⟨natDigits n⟩

/-- JS decimal rendering of an integer. -/
def intStr : Int → String
  | .ofNat n => natStr n
  | .negSucc m => "-" ++ natStr (m + 1)

/-! ### JSON.stringify -/

/-- Lowercase hex digit. -/
def hexDig (n : Nat) : Char := if n < 10 then Char.ofNat (48 + n) else Char.ofNat (87 + n)

/-- JSON.stringify escaping of a single character. -/
def escChar (c : Char) : List Char :=
  if c = '"' then ['\\', '"']
  else if c = '\\' then ['\\', '\\']
  else if c = '\n' then ['\\', 'n']
  else if c = '\r' then ['\\', 'r']
  else if c = '\t' then ['\\', 't']
  else if c = Char.ofNat 8 then ['\\', 'b']
  else if c = Char.ofNat 12 then ['\\', 'f']
  else if c.toNat < 32 then ['\\', 'u', '0', '0', hexDig (c.toNat / 16), hexDig (c.toNat % 16)]
  else [c]

/-- JSON.stringify rendering of a string literal (with quotes). -/
def jsonQuote (s : String) : List Char :=
  '"' :: (s.data.map escChar).flatten ++ ['"']

mutual

/-- `JSON.stringify` of a value (character list, no added whitespace). -/
def stringify : JVal → List Char
  | .null => "null".data
  | .bool true => "true".data
  | .bool false => "false".data
  | .num n => (intStr n).data
  | .str s => jsonQuote s
  | .arr xs => '[' :: commaSepV xs ++ [']']
  | .obj fs => '{' :: commaSepF fs ++ ['}']

/-- Comma-separated stringification of array elements. -/
def commaSepV : List JVal → List Char
  | [] => []
  | [x] => stringify x
  | x :: y :: xs => stringify x ++ ',' :: commaSepV (y :: xs)

/-- Comma-separated stringification of object fields. -/
def commaSepF : List (String × JVal) → List Char
  | [] => []
  | [(k, v)] => jsonQuote k ++ ':' :: stringify v
  | (k, v) :: g :: fs => jsonQuote k ++ ':' :: stringify v ++ ',' :: commaSepF (g :: fs)

end

/-- `JSON.stringify` of a value, as a `String`. -/
def stringifyStr (v : JVal) : String := ⟨stringify v⟩

/-! ### Basic string helpers -/

/-- Boolean list-prefix test. -/
def isPfx : List Char → List Char → Bool
  | [], _ => true
  | _ :: _, [] => false
  | a :: as, b :: bs => a == b && isPfx as bs

/-- Boolean substring (contiguous) test: does `hay` contain `needle`? -/
def hasSub (needle : List Char) : List Char → Bool
  | [] => needle.isEmpty
  | c :: rest => isPfx needle (c :: rest) || hasSub needle rest

/-- `String.includes` of JavaScript. -/
def strIncludes (hay needle : String) : Bool := hasSub needle.data hay.data

/-- ASCII lowercasing of a character list (JS `toLowerCase` on the ASCII
texts concerned). -/
def lowerChars (l : List Char) : List Char := l.map Char.toLower

/-! ### The redaction-pattern engine

The 18 regexes in `REDACTION_PATTERNS` (setup-page.js lines 749-775) use
only: case-insensitive literals, one fixed alternation of literal words,
single-character classes, and greedy repetitions (`*`, `+`, `?`, `{20,}`)
of single-character classes.  They are embedded as element sequences and
matched with JavaScript's leftmost-first backtracking semantics: a greedy
repetition first consumes as much as possible and then backs off one
character at a time until the rest of the pattern matches. -/

/-- One element of a (restricted) regular expression. -/
inductive RElem where
  | lit : String → RElem
  | alts : List String → RElem
  | one : (Char → Bool) → RElem
  | opt : (Char → Bool) → RElem
  | star : (Char → Bool) → RElem
  | plus : (Char → Bool) → RElem
  | atLeast : Nat → (Char → Bool) → RElem

/-- `[hi, hi-1, ..., lo]` (empty when `hi < lo`). -/
def downFrom (hi lo : Nat) : List Nat := (List.range' lo (hi + 1 - lo)).reverse

/-- Lengths a single pattern element may consume at the head of `s`, in
the order JavaScript backtracking tries them (greedy: longest first;
alternation: alternatives in written order). -/
def candidates : RElem → List Char → List Nat
  | .lit w, s =>
    let wl := lowerChars w.data
    if lowerChars (s.take wl.length) = wl then [wl.length] else []
  | .alts ws, s =>
    ws.filterMap fun w =>
      let wl := lowerChars w.data
      if lowerChars (s.take wl.length) = wl then some wl.length else none
  | .one cls, s =>
    match s with
    | [] => []
    | c :: _ => if cls c then [1] else []
  | .opt cls, s =>
    match s with
    | [] => [0]
    | c :: _ => if cls c then [1, 0] else [0]
  | .star cls, s => downFrom (s.takeWhile cls).length 0
  | .plus cls, s => downFrom (s.takeWhile cls).length 1
  | .atLeast n cls, s => downFrom (s.takeWhile cls).length n

/-- The first defined result among a list of attempts (the order encodes
JavaScript's leftmost-first backtracking preference). -/
def firstSome : List (Option Nat) → Option Nat
  | [] => none
  | some n :: _ => some n
  | none :: rest => firstSome rest

/-- Match a sequence of pattern elements at the head of `s`: for the
current element, try each candidate consumption in preference order and
take the first for which the remaining elements match.  Structural on a
fuel bounding the element count. -/
def matchElemsF : Nat → List RElem → List Char → Option Nat
  | 0, _, _ => none
  | _ + 1, [], _ => some 0
  | fuel + 1, e :: es, s =>
    firstSome ((candidates e s).map fun k => (matchElemsF fuel es (s.drop k)).map (k + ·))

/-- Match a pattern-element sequence at the head of `s`; the number of
characters consumed by the leftmost-first (backtracking) strategy, if any
alternative succeeds.  One fuel per element suffices. -/
def matchElems (es : List RElem) (s : List Char) : Option Nat :=
  matchElemsF (es.length + 1) es s

/-- Global regex replace (`String.replace` with a `/g` pattern): scan left
to right over the original text; at each position try the pattern, emit
the replacement on a match and continue after it, otherwise emit the
character and move on.  (Replaced text is not rescanned; all patterns in
the source consume at least one character on any match.) -/
def replaceAllF (p : List RElem) (repl : List Char → List Char) : Nat → List Char → List Char
  | 0, s => s
  | _ + 1, [] => []
  | fuel + 1, c :: rest =>
    match matchElems p (c :: rest) with
    | some (n + 1) =>
      repl ((c :: rest).take (n + 1)) ++ replaceAllF p repl fuel (rest.drop n)
    | some 0 => c :: replaceAllF p repl fuel rest
    | none => c :: replaceAllF p repl fuel rest

/-- Global replace, entered with fuel equal to the text length (each step
consumes at least one character, so the fuel never runs out). -/
def replaceAll (p : List RElem) (repl : List Char → List Char) (s : List Char) : List Char :=
  replaceAllF p repl s.length s


/-! ### The redaction patterns (setup-page.js lines 749-775) -/

/-- JS regex `\s` (whitespace), ASCII part plus NBSP. -/
def isWsRe (c : Char) : Bool :=
  c == ' ' || c == '\t' || c == '\n' || c == '\r' ||
    c.toNat == 11 || c.toNat == 12 || c.toNat == 160

/-- Character class `['":\s]`. -/
def clsQCW (c : Char) : Bool := c == '\'' || c == '"' || c == ':' || isWsRe c

/-- Character class `['"]`. -/
def clsQ (c : Char) : Bool := c == '\'' || c == '"'

/-- Character class `[^'"]`. -/
def clsNotQ (c : Char) : Bool := !(c == '\'' || c == '"')

/-- Character class `[A-Za-z0-9\-_]`. -/
def clsWordDash (c : Char) : Bool := c.isAlphanum || c == '-' || c == '_'

/-- Character class `[A-Za-z0-9+/=]`. -/
def clsB64 (c : Char) : Bool := c.isAlphanum || c == '+' || c == '/' || c == '='

/-- Character class `[_-]`. -/
def clsUH (c : Char) : Bool := c == '_' || c == '-'

/-- The common suffix `['":\s]*['"][^'"]+['"]` of the key/value-shaped
redaction patterns. -/
def kvTail : List RElem := [.star clsQCW, .one clsQ, .plus clsNotQ, .one clsQ]

/-- `REDACTION_PATTERNS` (lines 749-775), in source order.  All are
`/gi`-flagged; case-insensitivity is realised by lowercased literal
comparison and case-closed character classes. -/
def REDACTION_PATTERNS : List (List RElem) :=
  [ -- /authorization['":\s]*['"](Bearer|Basic|Digest|OAuth)\s+[^'"]+['"]/gi
    [.lit "authorization", .star clsQCW, .one clsQ,
     .alts ["Bearer", "Basic", "Digest", "OAuth"], .plus isWsRe, .plus clsNotQ, .one clsQ],
    -- /Bearer\s+[A-Za-z0-9\-_]+\.[A-Za-z0-9\-_]+\.[A-Za-z0-9\-_]+/gi
    [.lit "Bearer", .plus isWsRe, .plus clsWordDash, .lit ".", .plus clsWordDash,
     .lit ".", .plus clsWordDash],
    -- /Basic\s+[A-Za-z0-9+/=]+/gi
    [.lit "Basic", .plus isWsRe, .plus clsB64],
    -- /cookie['":\s]*['"][^'"]+['"]/gi
    [.lit "cookie"] ++ kvTail,
    -- /set-cookie['":\s]*['"][^'"]+['"]/gi
    [.lit "set-cookie"] ++ kvTail,
    -- /access[_-]?token['":\s]*['"][^'"]+['"]/gi
    [.lit "access", .opt clsUH, .lit "token"] ++ kvTail,
    -- /refresh[_-]?token['":\s]*['"][^'"]+['"]/gi
    [.lit "refresh", .opt clsUH, .lit "token"] ++ kvTail,
    -- /id[_-]?token['":\s]*['"][^'"]+['"]/gi
    [.lit "id", .opt clsUH, .lit "token"] ++ kvTail,
    -- /api[_-]?key['":\s]*['"][^'"]+['"]/gi
    [.lit "api", .opt clsUH, .lit "key"] ++ kvTail,
    -- /apikey['":\s]*['"][^'"]+['"]/gi
    [.lit "apikey"] ++ kvTail,
    -- /x-api-key['":\s]*['"][^'"]+['"]/gi
    [.lit "x-api-key"] ++ kvTail,
    -- /password['":\s]*['"][^'"]+['"]/gi
    [.lit "password"] ++ kvTail,
    -- /passwd['":\s]*['"][^'"]+['"]/gi
    [.lit "passwd"] ++ kvTail,
    -- /secret['":\s]*['"][^'"]+['"]/gi
    [.lit "secret"] ++ kvTail,
    -- /private[_-]?key['":\s]*['"][^'"]+['"]/gi
    [.lit "private", .opt clsUH, .lit "key"] ++ kvTail,
    -- /aws[_-]?access[_-]?key[_-]?id['":\s]*['"][^'"]+['"]/gi
    [.lit "aws", .opt clsUH, .lit "access", .opt clsUH, .lit "key", .opt clsUH, .lit "id"] ++ kvTail,
    -- /aws[_-]?secret[_-]?access[_-]?key['":\s]*['"][^'"]+['"]/gi
    [.lit "aws", .opt clsUH, .lit "secret", .opt clsUH, .lit "access", .opt clsUH, .lit "key"] ++ kvTail,
    -- /token['":\s]*['"][A-Za-z0-9\-_]{20,}['"]/gi
    [.lit "token", .star clsQCW, .one clsQ, .atLeast 20 clsWordDash, .one clsQ] ]

/-- The fixed redaction marker (line 780). -/
def REDACTED : String := "***REDACTED***"

/-- The replacement callback (lines 1045-1055): keep the matched text up
to and including the first `:` (else the first `=`) and append a quoted
redaction marker; with no separator, replace the whole match by the
marker. -/
def redactReplacement (m : List Char) : List Char :=
  let sep : Option Nat :=
    match m.findIdx? (· == ':') with
    | some i => some i
    | none => m.findIdx? (· == '=')
  match sep with
  | some i => m.take (i + 1) ++ ' ' :: '"' :: REDACTED.data ++ ['"']
  | none => REDACTED.data

/-- `LogBuffer._sanitize` (lines 1038-1059) on a character list: apply
every redaction pattern in order, each as a global replace. -/
def sanitizeChars (text : List Char) : List Char :=
  REDACTION_PATTERNS.foldl (fun result p => replaceAll p redactReplacement result) text

/-- `LogBuffer._sanitize` on strings.  (The dynamic `typeof text !==
'string'` coercion branch is not modelled: `append`'s message argument is
a string.) -/
def sanitize (text : String) : String := ⟨sanitizeChars text.data⟩

/-! ### Structured sanitization (`LogBuffer._sanitizeObject`, lines 1064-1106) -/

/-- The fixed sensitive-key substrings of `_sanitizeObject`. -/
def SENSITIVE_KEY_SUBSTRINGS : List String :=
  ["password", "secret", "token", "apikey", "api_key", "authorization", "cookie", "credential"]

/-- Does the lowercased key contain one of the sensitive substrings
(the disjunction of `lowerKey.includes(...)` checks, lines 1083-1092)? -/
def isSensitiveKey (k : String) : Bool :=
  SENSITIVE_KEY_SUBSTRINGS.any fun sub => hasSub sub.data (lowerChars k.data)

mutual

/-- `LogBuffer._sanitizeObject` (lines 1064-1106): `null` stays `null`,
strings are text-scrubbed, arrays are sanitized element-wise, objects are
sanitized field-wise, other scalars pass through. -/
def sanitizeObject : JVal → JVal
  | .null => .null
  | .str s => .str (sanitize s)
  | .arr xs => .arr (sanitizeList xs)
  | .obj fs => .obj (sanitizeFields fs)
  | .bool b => .bool b
  | .num n => .num n

/-- Element-wise sanitization of an array (`obj.map(item =>
this._sanitizeObject(item))`). -/
def sanitizeList : List JVal → List JVal
  | [] => []
  | v :: vs => sanitizeObject v :: sanitizeList vs

/-- Field-wise sanitization of an object's entries, in order. -/
def sanitizeFields : List (String × JVal) → List (String × JVal)
  | [] => []
  | (k, v) :: fs => (k, sanitizeField k v) :: sanitizeFields fs

/-- One object entry (lines 1079-1100): a sensitive key is redacted
wholesale; otherwise `typeof value === 'object'` values recurse, strings
are text-scrubbed, and anything else passes through. -/
def sanitizeField (k : String) (v : JVal) : JVal :=
  if isSensitiveKey k then .str REDACTED
  else if typeofIsObject v then sanitizeObject v
  else
    match v with
    | .str s => .str (sanitize s)
    | _ => v

end

/-! ### Line splitting, trimming, stack-trace truncation -/

/-- JS `String.trim` whitespace (ASCII part plus NBSP). -/
def isTrimWs (c : Char) : Bool :=
  c == ' ' || c == '\t' || c == '\n' || c == '\r' ||
    c.toNat == 11 || c.toNat == 12 || c.toNat == 160

/-- JS `String.trim`. -/
def jsTrim (l : List Char) : List Char :=
  ((l.dropWhile isTrimWs).reverse.dropWhile isTrimWs).reverse

/-- `message.split('\n')` on a character list. -/
def splitNl : List Char → List (List Char)
  | [] => [[]]
  | c :: rest =>
    if c = '\n' then [] :: splitNl rest
    else
      match splitNl rest with
      | l :: ls => (c :: l) :: ls
      | [] => [[c]]

/-- `lines.join('\n')`. -/
def joinNl : List (List Char) → List Char
  | [] => []
  | [l] => l
  | l :: m :: ls => l ++ '\n' :: joinNl (m :: ls)

/-- `Array.prototype.slice(0, e)` with a possibly negative end index. -/
def jsSliceEnd (l : List (List Char)) (e : Int) : List (List Char) :=
  let stop : Int := if e < 0 then max ((l.length : Int) + e) 0 else min e (l.length : Int)
  l.take stop.toNat

/-- `MAX_STACK_LINES` (line 785). -/
def MAX_STACK_LINES : Nat := 40

/-- Does a line look like a stack frame (`lines[i].trim().startsWith('at ')`)? -/
def isStackLine (l : List Char) : Bool := isPfx "at ".data (jsTrim l)

/-- `LogBuffer._truncateStackTrace` (lines 1111-1144). -/
def truncateStackTrace (message : List Char) : List Char :=
  let lines := splitNl message
  if lines.length ≤ MAX_STACK_LINES then message
  else
    match lines.findIdx? isStackLine with
    | none =>
      -- No stack trace found: truncate normally with a generic trailer.
      joinNl (lines.take MAX_STACK_LINES) ++ '\n' :: "... (truncated)".data
    | some stackStart =>
      let messageLines := lines.take stackStart
      let stackLines := lines.drop stackStart
      let maxStackLines : Int := (MAX_STACK_LINES : Int) - (messageLines.length : Int)
      if (stackLines.length : Int) ≤ maxStackLines then message
      else
        let truncatedStack := jsSliceEnd stackLines maxStackLines
        let omitted : Int := (stackLines.length : Int) - maxStackLines
        joinNl (messageLines ++ truncatedStack ++
          ["... (".data ++ (intStr omitted).data ++ " more stack frames)".data])

/-! ### Events and the buffer (lines 790-886, 991-1033) -/

/-- `LOG_LEVELS` (line 744). -/
def LOG_LEVELS : List String := ["debug", "info", "warn", "error"]

/-- A `LogEvent` record (lines 798-816).  `data` is `JVal.null` for the
JS `null`. -/
structure LogEvent where
  seq : Nat
  ts : String
  level : String
  source : String
  message : String
  data : JVal
deriving Repr

/-- `LogEvent._calculateSize` (lines 809-816): a rough serialized-size
estimate, computed once from the event's immutable fields. -/
def LogEvent.size (e : LogEvent) : Nat :=
  e.ts.length + e.level.length + e.source.length + e.message.length + 100 +
    (if jsTruthy e.data then (stringify e.data).length else 0)

/-- The reader-facing shape of one event (`LogEvent.toJSON`, lines
818-831): always the five keys `ts, level, source, message, data`. -/
structure EventView where
  ts : String
  level : String
  source : String
  message : String
  data : JVal
deriving Repr

/-- Is this value the JS `null`? -/
def JVal.isNull : JVal → Bool
  | .null => true
  | _ => false

/-- `LogEvent.toJSON(includeStructured)`: `data` is forced to `null`
unless structured data is requested and present
(`includeStructured && this.data !== null`). -/
def LogEvent.toJSON (e : LogEvent) (includeStructured : Bool) : EventView :=
  { ts := e.ts, level := e.level, source := e.source, message := e.message,
    data := if includeStructured && !e.data.isNull then e.data else .null }

/-- `BufferConfig` (`DEFAULT_CONFIG`, lines 790-793). -/
structure Config where
  maxEvents : Nat
  maxBytes : Nat
deriving Repr, DecidableEq

/-- The default configuration: 10,000 events, 10 MiB. -/
def DEFAULT_CONFIG : Config := { maxEvents := 10000, maxBytes := 10 * 1024 * 1024 }

/-- The mutable state of a `LogBuffer` (constructor, lines 842-849). -/
structure Buffer where
  config : Config
  events : List LogEvent
  seq : Nat
  totalBytes : Nat
  droppedCount : Nat
  earliestRetainedSeq : Nat
deriving Repr

/-- A freshly constructed `LogBuffer` with the given configuration. -/
def Buffer.init (cfg : Config) : Buffer :=
  { config := cfg, events := [], seq := 0, totalBytes := 0, droppedCount := 0,
    earliestRetainedSeq := 0 }

/-- The ternary of lines 1026-1028: the earliest retained sequence after
one eviction is the new first event's sequence, or the current sequence
counter if nothing remains. -/
def nextEarliest (rest : List LogEvent) (seqCounter : Nat) : Nat :=
  match rest with
  | [] => seqCounter
  | e :: _ => e.seq

/-- `LogBuffer._enforceRetention` (lines 1017-1033): drop oldest events
while either bound is exceeded.  (`events.shift()` returning `undefined`
on an empty array yields the `break` branch.) -/
def enforceRetentionF : Nat → Buffer → Buffer
  | 0, b => b
  | fuel + 1, b =>
    if b.events.length > b.config.maxEvents ∨ b.totalBytes > b.config.maxBytes then
      match b.events with
      | [] => b
      | dropped :: rest =>
        enforceRetentionF fuel
          { b with
            events := rest,
            totalBytes := b.totalBytes - dropped.size,
            droppedCount := b.droppedCount + 1,
            earliestRetainedSeq := nextEarliest rest b.seq }
    else b

/-- The retention loop, entered with fuel exceeding the number of retained
events (each iteration evicts one, so the fuel never runs out). -/
def enforceRetention (b : Buffer) : Buffer := enforceRetentionF (b.events.length + 1) b

/-- The event a given `append` call constructs (lines 860-876): level
normalization, message/data sanitization, stack-trace truncation for
non-debug levels, and the pre-incremented sequence number. -/
def newEventFor (b : Buffer) (ts level source message : String) (data : JVal) : LogEvent :=
  let lvl := if LOG_LEVELS.contains level then level else "info"
  let sanitizedMessage := sanitize message
  let sanitizedData := if jsTruthy data then sanitizeObject data else JVal.null
  let truncatedMessage :=
    if lvl ≠ "debug" then (⟨truncateStackTrace sanitizedMessage.data⟩ : String)
    else sanitizedMessage
  { seq := b.seq + 1, ts := ts, level := lvl, source := source,
    message := truncatedMessage, data := sanitizedData }

/-- `LogBuffer.append` (lines 859-886): build the event, push it, add its
size estimate, enforce retention, and return the new sequence number. -/
def append (b : Buffer) (ts level source message : String) (data : JVal) : Buffer × Nat :=
  let e := newEventFor b ts level source message data
  (enforceRetention
    { b with
      seq := b.seq + 1,
      events := b.events ++ [e],
      totalBytes := b.totalBytes + e.size },
   b.seq + 1)

/-- `LogBuffer.clear` (lines 1007-1012): empty the retained list, zero
the byte total and dropped counter, set the earliest retained sequence to
the current counter; the counter itself is preserved. -/
def clear (b : Buffer) : Buffer :=
  { b with
    events := [],
    totalBytes := 0,
    droppedCount := 0,
    earliestRetainedSeq := b.seq }

/-- The `stats()` snapshot (lines 994-1002). -/
structure Stats where
  eventCount : Nat
  totalBytes : Nat
  droppedCount : Nat
  currentSeq : Nat
  earliestRetainedSeq : Nat
deriving Repr, DecidableEq

/-- `LogBuffer.stats` (lines 994-1002). -/
def stats (b : Buffer) : Stats :=
  { eventCount := b.events.length, totalBytes := b.totalBytes,
    droppedCount := b.droppedCount, currentSeq := b.seq,
    earliestRetainedSeq := b.earliestRetainedSeq }

/-! ### Base64url (Node `Buffer.from(...).toString('base64url')` and back)

Cursors are ASCII JSON texts, so UTF-8 encoding is byte-per-character;
`strBytes`/`bytesToStr` model that boundary (a byte ≥ 128 in a foreign
cursor decodes to the replacement character, as Node does for invalid
UTF-8). -/

/-- The base64url alphabet. -/
def b64Alphabet : List Char :=
  "ABCDEFGHIJKLMNOPQRSTUVWXYZabcdefghijklmnopqrstuvwxyz0123456789-_".data

/-- The base64url character for a 6-bit value. -/
def b64Char (n : Nat) : Char := b64Alphabet.getD n 'A'

/-- The 6-bit value of a character; Node's decoder also accepts the
standard-alphabet `+` and `/` and skips any other character (including
`=` padding). -/
def b64Val (c : Char) : Option Nat :=
  match b64Alphabet.findIdx? (· == c) with
  | some i => some i
  | none => if c == '+' then some 62 else if c == '/' then some 63 else none

/-- Base64url-encode a byte list (unpadded, as Node's `'base64url'`). -/
def b64Encode : List Nat → List Char
  | [] => []
  | [b1] => [b64Char (b1 / 4), b64Char (b1 % 4 * 16)]
  | [b1, b2] => [b64Char (b1 / 4), b64Char (b1 % 4 * 16 + b2 / 16), b64Char (b2 % 16 * 4)]
  | b1 :: b2 :: b3 :: rest =>
    b64Char (b1 / 4) :: b64Char (b1 % 4 * 16 + b2 / 16) ::
      b64Char (b2 % 16 * 4 + b3 / 64) :: b64Char (b3 % 64) :: b64Encode rest

/-- Reassemble bytes from a sextet list (groups of four; a trailing
group of two or three sextets yields one or two bytes, a lone trailing
sextet is dropped). -/
def b64Sextets : List Nat → List Nat
  | s1 :: s2 :: s3 :: s4 :: rest =>
    (s1 * 4 + s2 / 16) :: (s2 % 16 * 16 + s3 / 4) :: (s3 % 4 * 64 + s4) :: b64Sextets rest
  | [s1, s2, s3] => [s1 * 4 + s2 / 16, s2 % 16 * 16 + s3 / 4]
  | [s1, s2] => [s1 * 4 + s2 / 16]
  | [_] => []
  | [] => []

/-- Base64/base64url decode (invalid characters are skipped). -/
def b64Decode (s : List Char) : List Nat := b64Sextets (s.filterMap b64Val)

/-- UTF-8 bytes of an ASCII string (byte-per-character on the texts
concerned). -/
def strBytes (s : String) : List Nat := s.data.map Char.toNat

/-- Decode bytes to a string (ASCII model: a byte ≥ 128 becomes the
replacement character). -/
def bytesToStr (bs : List Nat) : String :=
  ⟨bs.map fun b => if b < 128 then Char.ofNat b else Char.ofNat 0xFFFD⟩

/-! ### A JSON parser (`JSON.parse` for the cursor payload)

Fuel is consumed when entering a nested object/array and per
member/element, so a fixed small fuel unfolds the cursor payload
independently of its digit count; `jsonParse` supplies `length + 1`,
which over-approximates the nesting of any parseable text. -/

/-- Hex digit value. -/
def hexVal (c : Char) : Option Nat :=
  if '0' ≤ c ∧ c ≤ '9' then some (c.toNat - 48)
  else if 'a' ≤ c ∧ c ≤ 'f' then some (c.toNat - 87)
  else if 'A' ≤ c ∧ c ≤ 'F' then some (c.toNat - 55)
  else none

/-- JSON insignificant whitespace. -/
def isWsJson (c : Char) : Bool := c == ' ' || c == '\t' || c == '\n' || c == '\r'

/-- Skip insignificant whitespace. -/
def skipWs (s : List Char) : List Char := s.dropWhile isWsJson

/-- Parse a JSON string body after the opening quote; returns the content
and the rest after the closing quote.  Structural on a fuel bounding the
input length. -/
def pStringBodyF : Nat → List Char → Option (List Char × List Char)
  | 0, _ => none
  | _ + 1, [] => none
  | fuel + 1, c :: rest =>
    if c = '"' then some ([], rest)
    else if c = '\\' then
      match rest with
      | [] => none
      | e :: rest2 =>
        if e = 'u' then
          match rest2 with
          | h1 :: h2 :: h3 :: h4 :: rest3 =>
            match hexVal h1, hexVal h2, hexVal h3, hexVal h4 with
            | some a, some b, some c2, some d =>
              (pStringBodyF fuel rest3).map fun p =>
                (Char.ofNat (a * 4096 + b * 256 + c2 * 16 + d) :: p.1, p.2)
            | _, _, _, _ => none
          | _ => none
        else
          match
            (if e = '"' then some '"'
             else if e = '\\' then some '\\'
             else if e = '/' then some '/'
             else if e = 'b' then some (Char.ofNat 8)
             else if e = 'f' then some (Char.ofNat 12)
             else if e = 'n' then some '\n'
             else if e = 'r' then some '\r'
             else if e = 't' then some '\t'
             else none : Option Char)
          with
          | some ch => (pStringBodyF fuel rest2).map fun p => (ch :: p.1, p.2)
          | none => none
    else if c.toNat < 32 then none
    else (pStringBodyF fuel rest).map fun p => (c :: p.1, p.2)

/-- Parse a JSON string body (fuel: input length plus one; every step
consumes at least one character). -/
def pStringBody (s : List Char) : Option (List Char × List Char) :=
  pStringBodyF (s.length + 1) s

/-- Consume decimal digits, folding them onto `acc`. -/
def pDigits (acc : Nat) : List Char → Nat × List Char
  | [] => (acc, [])
  | c :: rest =>
    if c.isDigit then pDigits (acc * 10 + (c.toNat - 48)) rest else (acc, c :: rest)

/-- Does the rest start a fraction or exponent part?  (Outside the
integer model; treated as a parse failure.) -/
def startsFracExp : List Char → Bool
  | c :: _ => c == '.' || c == 'e' || c == 'E'
  | [] => false

/-- Does a digit follow (the leading-zero rejection of JSON numbers)? -/
def headIsDigit : List Char → Bool
  | d :: _ => d.isDigit
  | [] => false

/-- Parse a JSON integer (optional minus sign, no leading zeros). -/
def pNumber (s : List Char) : Option (Int × List Char) :=
  match s with
  | [] => none
  | c :: rest =>
    if c = '-' then
      match rest with
      | [] => none
      | c2 :: rest2 =>
        if c2.isDigit then
          if c2 = '0' ∧ headIsDigit rest2 then none
          else
            let p := pDigits (c2.toNat - 48) rest2
            if startsFracExp p.2 then none else some (-(p.1 : Int), p.2)
        else none
    else if c.isDigit then
      if c = '0' ∧ headIsDigit rest then none
      else
        let p := pDigits (c.toNat - 48) rest
        if startsFracExp p.2 then none else some ((p.1 : Int), p.2)
    else none

/-- Parse one or more `"key": value` members of an object, given a parser
for nested values; structural on a fuel bounding the member count. -/
def pMembersG (pv : List Char → Option (JVal × List Char)) :
    Nat → List Char → List (String × JVal) → Option (JVal × List Char)
  | 0, _, _ => none
  | fuel + 1, s, acc =>
    match skipWs s with
    | '"' :: rest =>
      match pStringBody rest with
      | none => none
      | some (kcs, r1) =>
        match skipWs r1 with
        | ':' :: r3 =>
          match pv r3 with
          | none => none
          | some (v, r4) =>
            match skipWs r4 with
            | ',' :: r6 => pMembersG pv fuel r6 (acc ++ [(⟨kcs⟩, v)])
            | '}' :: r6 => some (.obj (acc ++ [(⟨kcs⟩, v)]), r6)
            | _ => none
        | _ => none
    | _ => none

/-- Parse one or more array elements, given a parser for nested values;
structural on a fuel bounding the element count. -/
def pElemsG (pv : List Char → Option (JVal × List Char)) :
    Nat → List Char → List JVal → Option (JVal × List Char)
  | 0, _, _ => none
  | fuel + 1, s, acc =>
    match pv s with
    | none => none
    | some (v, r) =>
      match skipWs r with
      | ',' :: r3 => pElemsG pv fuel r3 (acc ++ [v])
      | ']' :: r3 => some (.arr (acc ++ [v]), r3)
      | _ => none

/-- Parse one JSON value; the fuel bounds the nesting depth (one unit per
`{` or `[` entered), and the member/element loops get one unit per
remaining character. -/
def pValue : Nat → List Char → Option (JVal × List Char)
  | 0, _ => none
  | fuel + 1, s =>
    match skipWs s with
    | [] => none
    | c :: rest =>
      if c = '{' then
        match skipWs rest with
        | '}' :: r2 => some (.obj [], r2)
        | s2 => pMembersG (pValue fuel) (rest.length + 1) s2 []
      else if c = '[' then
        match skipWs rest with
        | ']' :: r2 => some (.arr [], r2)
        | s2 => pElemsG (pValue fuel) (rest.length + 1) s2 []
      else if c = '"' then (pStringBody rest).map fun p => (.str ⟨p.1⟩, p.2)
      else if c = 't' then
        if isPfx "rue".data rest then some (.bool true, rest.drop 3) else none
      else if c = 'f' then
        if isPfx "alse".data rest then some (.bool false, rest.drop 4) else none
      else if c = 'n' then
        if isPfx "ull".data rest then some (.null, rest.drop 3) else none
      else (pNumber (c :: rest)).map fun p => (.num p.1, p.2)

/-- `JSON.parse`: parse a complete value with only trailing whitespace. -/
def jsonParse (s : String) : Option JVal :=
  match pValue (s.length + 1) s.data with
  | some (v, r) => if skipWs r = [] then some v else none
  | none => none

/-! ### Cursor codec (lines 1149-1166) -/

/-- Property lookup on a parsed JSON object: later duplicate keys
overwrite earlier ones, as in `JSON.parse`. -/
def jLookup (fs : List (String × JVal)) (k : String) : Option JVal :=
  fs.foldl (fun acc kv => if kv.1 == k then some kv.2 else acc) none

/-- `LogBuffer._encodeCursor` (lines 1149-1151):
`base64url(JSON.stringify({v: 1, s: seq}))`. -/
def encodeCursor (seq : Int) : String :=
  ⟨b64Encode (strBytes (stringifyStr (.obj [("v", .num 1), ("s", .num seq)])))⟩

/-- The successful path of `LogBuffer._decodeCursor` (lines 1156-1166):
`some s` exactly when the cursor base64url-decodes to a JSON text whose
value is an object with `v === 1` and a numeric `s`. -/
def decodeCursorOpt (cursor : String) : Option Int :=
  match jsonParse (bytesToStr (b64Decode cursor.data)) with
  | some (.obj fs) =>
    match jLookup fs "v", jLookup fs "s" with
    | some (.num 1), some (.num s) => some s
    | _, _ => none
  | _ => none

/-- `LogBuffer._decodeCursor`: any failure (caught exception, wrong
version, non-numeric `s`) falls back to `0`. -/
def decodeCursor (cursor : String) : Int := (decodeCursorOpt cursor).getD 0

/-! ### The read path (`LogBuffer.read`, lines 899-989) -/

/-- The options object of `read` with its defaults (lines 900-907). -/
structure ReadOptions where
  cursor : Option String := none
  limit : Int := 200
  maxBytes : Int := 256000
  levels : Option (List String) := none
  sources : Option (List String) := none
  includeStructured : Bool := true

/-- The result object of `read` (lines 917-922). -/
structure ReadResult where
  cursor : String
  has_more : Bool
  events : List EventView
  truncated : Bool
deriving Repr

/-- The JSON shape of a returned event (keys in insertion order
`ts, level, source, message, data`; the synthetic warning object literal
of lines 927-933 has the same key order). -/
def EventView.toJVal (v : EventView) : JVal :=
  .obj [("ts", .str v.ts), ("level", .str v.level), ("source", .str v.source),
        ("message", .str v.message), ("data", v.data)]

/-- `JSON.stringify(eventJson).length + 2` (line 960). -/
def viewSize (v : EventView) : Nat := (stringify v.toJVal).length + 2

/-- Does an event pass the `levels` allow-list (line 949)?  A missing or
empty list filters nothing. -/
def levelPass (levels : Option (List String)) (e : LogEvent) : Bool :=
  match levels with
  | none => true
  | some ls => ls.isEmpty || ls.contains e.level

/-- Does an event pass the `sources` allow-list (line 954)? -/
def sourcePass (sources : Option (List String)) (e : LogEvent) : Bool :=
  match sources with
  | none => true
  | some ss => ss.isEmpty || ss.contains e.source

/-- The mutable locals of `read`'s scan loop (lines 940-977). -/
structure LoopState where
  events : List EventView
  currentBytes : Nat
  lastSeq : Int
  hasMore : Bool
  truncated : Bool
deriving Repr

/-- The scan loop of `read` (lines 943-977): skip events at or before the
effective start and events failing a filter; stop with `truncated` and
`has_more` when the next event would exceed the byte cap; stop with
`has_more` when the result already holds `limit` events; otherwise admit
the event and advance the last-seen sequence. -/
def readLoop (opts : ReadOptions) (effLimit effMaxBytes effStart : Int) :
    List LogEvent → LoopState → LoopState
  | [], st => st
  | e :: rest, st =>
    if (e.seq : Int) ≤ effStart then readLoop opts effLimit effMaxBytes effStart rest st
    else if !levelPass opts.levels e then readLoop opts effLimit effMaxBytes effStart rest st
    else if !sourcePass opts.sources e then readLoop opts effLimit effMaxBytes effStart rest st
    else
      let ej := e.toJSON opts.includeStructured
      let esize := viewSize ej
      if (st.currentBytes + esize : Int) > effMaxBytes then
        { st with truncated := true, hasMore := true }
      else if (st.events.length : Int) ≥ effLimit then
        { st with hasMore := true }
      else
        readLoop opts effLimit effMaxBytes effStart rest
          { st with
            events := st.events ++ [ej],
            currentBytes := st.currentBytes + esize,
            lastSeq := (e.seq : Int) }

/-- The synthetic stale-cursor warning event (lines 927-933). -/
def mkStaleWarning (b : Buffer) (ts : String) : EventView :=
  { ts := ts, level := "warn", source := "log_buffer",
    message := "Cursor pointed to dropped data. " ++ natStr b.droppedCount ++
      " events were dropped due to retention policy. Resuming from earliest retained event.",
    data := .null }

/-- `LogBuffer.read` (lines 899-989).  `ts` is the wall clock used for a
synthetic warning's timestamp.  The source mutates nothing during `read`;
correspondingly only a result is returned. -/
def read (b : Buffer) (opts : ReadOptions) (ts : String) : ReadResult :=
  let startSeq : Int :=
    match opts.cursor with
    | some c => if c ≠ "" then decodeCursor c else 0
    | none => 0
  let effLimit : Int := min (max 1 opts.limit) 1000
  let effMaxBytes : Int := min (max 1000 opts.maxBytes) 1000000
  let initEvents : List EventView :=
    if 0 < startSeq ∧ startSeq < (b.earliestRetainedSeq : Int) then [mkStaleWarning b ts]
    else []
  let effStart : Int := max startSeq (b.earliestRetainedSeq : Int)
  let initBytes : Nat := (stringify (.arr (initEvents.map EventView.toJVal))).length
  let st := readLoop opts effLimit effMaxBytes effStart b.events
    { events := initEvents, currentBytes := initBytes, lastSeq := effStart,
      hasMore := false, truncated := false }
  let hasMore : Bool :=
    if !st.hasMore && !b.events.isEmpty then
      match b.events.getLast? with
      | some last => st.lastSeq < (last.seq : Int)
      | none => st.hasMore
    else st.hasMore
  { cursor := encodeCursor st.lastSeq, has_more := hasMore, events := st.events,
    truncated := st.truncated }

/-! ### Programs over a buffer: sequences of appends and clears -/

/-- The arguments of one `append` call. -/
structure AppendCall where
  ts : String
  level : String
  source : String
  message : String
  data : JVal

/-- Run a list of `append` calls. -/
def runAppends (b : Buffer) : List AppendCall → Buffer
  | [] => b
  | c :: cs => runAppends (append b c.ts c.level c.source c.message c.data).1 cs

/-- One operation of an append/clear program. -/
inductive BufferOp where
  | appendOp : AppendCall → BufferOp
  | clearOp : BufferOp

/-- Is this an `append` operation? -/
def isAppendOp : BufferOp → Bool
  | .appendOp _ => true
  | .clearOp => false

/-- The number of `append` calls in a program. -/
def countAppends (ops : List BufferOp) : Nat := (ops.filter isAppendOp).length

/-- Run a program, collecting the sequence numbers returned by the
`append` calls in call order. -/
def runOps : Buffer → List BufferOp → Buffer × List Nat
  | b, [] => (b, [])
  | b, .appendOp c :: ops =>
    let r := append b c.ts c.level c.source c.message c.data
    let rest := runOps r.1 ops
    (rest.1, r.2 :: rest.2)
  | b, .clearOp :: ops => runOps (clear b) ops

/-! ### Retention lemmas -/

/-- The sum of the size estimates of a list of events. -/
def sumSizes (l : List LogEvent) : Nat := (l.map LogEvent.size).sum

theorem sumSizes_nil : sumSizes [] = 0 := rfl

theorem sumSizes_cons (e : LogEvent) (l : List LogEvent) :
    sumSizes (e :: l) = e.size + sumSizes l := by
  simp [sumSizes]

theorem sumSizes_append (l m : List LogEvent) :
    sumSizes (l ++ m) = sumSizes l + sumSizes m := by
  simp [sumSizes]

theorem enforceRetention_eq_nil (b : Buffer) (hev : b.events = []) :
    enforceRetention b = b := by
  rw [enforceRetention, enforceRetentionF]
  split
  · split
    · rfl
    · rename_i heq
      rw [hev] at heq
      cases heq
  · rfl

theorem enforceRetention_eq_done (b : Buffer)
    (hcond : ¬(b.events.length > b.config.maxEvents ∨ b.totalBytes > b.config.maxBytes)) :
    enforceRetention b = b := by
  rw [enforceRetention, enforceRetentionF, if_neg hcond]

theorem enforceRetention_eq_cons (b : Buffer) (dropped : LogEvent) (rest : List LogEvent)
    (hev : b.events = dropped :: rest)
    (hcond : b.events.length > b.config.maxEvents ∨ b.totalBytes > b.config.maxBytes) :
    enforceRetention b =
      enforceRetention
        { b with
          events := rest,
          totalBytes := b.totalBytes - dropped.size,
          droppedCount := b.droppedCount + 1,
          earliestRetainedSeq := nextEarliest rest b.seq } := by
  conv_lhs => rw [enforceRetention, enforceRetentionF]
  rw [if_pos hcond]
  split
  · rename_i heq
    rw [hev] at heq
    cases heq
  · rename_i d r heq
    rw [hev] at heq
    cases heq
    rw [enforceRetention]
    have hl : b.events.length = rest.length + 1 := by rw [hev]; rfl
    rw [hl]

/-- Main retention specification: starting from a byte-total consistent
with the retained events, `_enforceRetention` preserves that consistency,
establishes both retention bounds, and touches neither the configuration
nor the sequence counter; the dropped counter advances by the number of
evicted events. -/
theorem enforceRetention_spec_aux :
    ∀ (n : Nat) (b : Buffer), b.events.length ≤ n →
      b.totalBytes = sumSizes b.events →
      (enforceRetention b).totalBytes = sumSizes (enforceRetention b).events ∧
      (enforceRetention b).events.length ≤ b.config.maxEvents ∧
      (enforceRetention b).totalBytes ≤ b.config.maxBytes ∧
      (enforceRetention b).config = b.config ∧
      (enforceRetention b).seq = b.seq ∧
      (enforceRetention b).events.length ≤ b.events.length ∧
      (enforceRetention b).droppedCount =
        b.droppedCount + (b.events.length - (enforceRetention b).events.length) := by
  intro n
  induction n with
  | zero =>
    intro b hlen hsum
    have hev : b.events = [] := List.length_eq_zero.mp (Nat.le_zero.mp hlen)
    rw [enforceRetention_eq_nil b hev]
    refine ⟨hsum, ?_, ?_, rfl, rfl, Nat.le_refl _, by omega⟩
    · rw [hev]; exact Nat.zero_le _
    · rw [hsum, hev, sumSizes_nil]; exact Nat.zero_le _
  | succ n ih =>
    intro b hlen hsum
    by_cases hcond : b.events.length > b.config.maxEvents ∨ b.totalBytes > b.config.maxBytes
    · cases hev : b.events with
      | nil =>
        rw [enforceRetention_eq_nil b hev]
        rw [hev, hsum, hev, sumSizes_nil] at hcond
        simp at hcond
      | cons d r =>
        rw [enforceRetention_eq_cons b d r hev hcond]
        have hsum2 : b.totalBytes - d.size = sumSizes r := by
          rw [hsum, hev, sumSizes_cons]; omega
        have hlen2 : r.length ≤ n := by
          have := congrArg List.length hev
          simp at this
          omega
        have := ih { b with
          events := r,
          totalBytes := b.totalBytes - d.size,
          droppedCount := b.droppedCount + 1,
          earliestRetainedSeq := nextEarliest r b.seq }
          hlen2 hsum2
        dsimp only at this
        obtain ⟨h1, h2, h3, h4, h5, h6, h7⟩ := this
        have hlb : b.events.length = r.length + 1 := by rw [hev]; simp
        refine ⟨h1, h2, h3, h4, h5, ?_, ?_⟩ <;> simp only [List.length_cons] <;> omega
    · rw [enforceRetention_eq_done b hcond]
      push_neg at hcond
      exact ⟨hsum, hcond.1, hcond.2, rfl, rfl, Nat.le_refl _, by omega⟩

theorem enforceRetention_spec (b : Buffer) (hsum : b.totalBytes = sumSizes b.events) :
    (enforceRetention b).totalBytes = sumSizes (enforceRetention b).events ∧
    (enforceRetention b).events.length ≤ b.config.maxEvents ∧
    (enforceRetention b).totalBytes ≤ b.config.maxBytes ∧
    (enforceRetention b).config = b.config ∧
    (enforceRetention b).seq = b.seq ∧
    (enforceRetention b).events.length ≤ b.events.length ∧
    (enforceRetention b).droppedCount =
      b.droppedCount + (b.events.length - (enforceRetention b).events.length) :=
  enforceRetention_spec_aux b.events.length b (Nat.le_refl _) hsum

/-- The buffer `append` pushes onto before enforcing retention. -/
theorem append_eq (b : Buffer) (ts level source message : String) (data : JVal) :
    append b ts level source message data =
      (enforceRetention
        { b with
          seq := b.seq + 1,
          events := b.events ++ [newEventFor b ts level source message data],
          totalBytes := b.totalBytes + (newEventFor b ts level source message data).size },
       b.seq + 1) := rfl

/-- After an `append` on a byte-consistent buffer: consistency is kept,
both retention bounds hold, the configuration is unchanged, and the
sequence counter advanced by one. -/
theorem append_spec (b : Buffer) (ts level source message : String) (data : JVal)
    (hsum : b.totalBytes = sumSizes b.events) :
    (append b ts level source message data).1.totalBytes =
        sumSizes (append b ts level source message data).1.events ∧
    (append b ts level source message data).1.config = b.config ∧
    (append b ts level source message data).1.seq = b.seq + 1 ∧
    (append b ts level source message data).1.events.length ≤ b.config.maxEvents ∧
    (append b ts level source message data).1.totalBytes ≤ b.config.maxBytes ∧
    (append b ts level source message data).2 = b.seq + 1 := by
  rw [append_eq]
  have hsum2 : b.totalBytes + (newEventFor b ts level source message data).size =
      sumSizes (b.events ++ [newEventFor b ts level source message data]) := by
    rw [sumSizes_append, sumSizes_cons, sumSizes_nil, hsum]
    omega
  have h := enforceRetention_spec
    { b with
      seq := b.seq + 1,
      events := b.events ++ [newEventFor b ts level source message data],
      totalBytes := b.totalBytes + (newEventFor b ts level source message data).size }
    hsum2
  dsimp only at h
  exact ⟨h.1, h.2.2.2.1, h.2.2.2.2.1, h.2.1, h.2.2.1, rfl⟩

theorem runAppends_inv (cfg : Config) :
    ∀ (calls : List AppendCall) (b : Buffer),
      b.totalBytes = sumSizes b.events → b.config = cfg →
      (runAppends b calls).totalBytes = sumSizes (runAppends b calls).events ∧
      (runAppends b calls).config = cfg ∧
      (calls = [] → runAppends b calls = b) ∧
      (calls ≠ [] →
        (runAppends b calls).events.length ≤ cfg.maxEvents ∧
        (runAppends b calls).totalBytes ≤ cfg.maxBytes) := by
  intro calls
  induction calls with
  | nil =>
    intro b hsum hcfg
    exact ⟨hsum, hcfg, fun _ => rfl, fun hne => absurd rfl hne⟩
  | cons c cs ih =>
    intro b hsum hcfg
    have ha := append_spec b c.ts c.level c.source c.message c.data hsum
    have ih2 := ih (append b c.ts c.level c.source c.message c.data).1 ha.1
      (ha.2.1.trans hcfg)
    refine ⟨ih2.1, ih2.2.1, fun hcs => absurd hcs (List.cons_ne_nil c cs), fun _ => ?_⟩
    by_cases hcs : cs = []
    · have h0 := ih2.2.2.1 hcs
      rw [runAppends, h0, ← hcfg]
      exact ⟨ha.2.2.2.1, ha.2.2.2.2.1⟩
    · have h0 := ih2.2.2.2 hcs
      rw [runAppends]
      exact h0

/-- C1.  For every configuration and every finite sequence of `append`
calls (each intermediate state being itself reached by such a sequence),
the invariant `eventCount <= max_events` and `totalBytes <= max_bytes`
holds of the resulting buffer's `stats()` snapshot. -/
theorem claim_C1 (cfg : Config) (calls : List AppendCall) :
    (stats (runAppends (Buffer.init cfg) calls)).eventCount ≤ cfg.maxEvents ∧
    (stats (runAppends (Buffer.init cfg) calls)).totalBytes ≤ cfg.maxBytes := by
  have h := runAppends_inv cfg calls (Buffer.init cfg) rfl rfl
  cases calls with
  | nil => exact ⟨Nat.zero_le _, Nat.zero_le _⟩
  | cons c cs =>
    have := h.2.2.2 (List.cons_ne_nil c cs)
    exact this

/-- `_enforceRetention` never touches the sequence counter. -/
theorem enforceRetention_seq :
    ∀ (n : Nat) (b : Buffer), b.events.length ≤ n →
      (enforceRetention b).seq = b.seq := by
  intro n
  induction n with
  | zero =>
    intro b hlen
    rw [enforceRetention_eq_nil b (List.length_eq_zero.mp (Nat.le_zero.mp hlen))]
  | succ n ih =>
    intro b hlen
    by_cases hcond : b.events.length > b.config.maxEvents ∨ b.totalBytes > b.config.maxBytes
    · cases hev : b.events with
      | nil => rw [enforceRetention_eq_nil b hev]
      | cons d r =>
        rw [enforceRetention_eq_cons b d r hev hcond]
        have hlen2 : r.length ≤ n := by
          have := congrArg List.length hev
          simp at this
          omega
        exact ih _ hlen2
    · rw [enforceRetention_eq_done b hcond]

/-- `append` advances the stored sequence counter by exactly one and
returns the advanced value. -/
theorem append_seq (b : Buffer) (ts level source message : String) (data : JVal) :
    (append b ts level source message data).1.seq = b.seq + 1 ∧
    (append b ts level source message data).2 = b.seq + 1 := by
  rw [append_eq]
  refine ⟨?_, rfl⟩
  exact enforceRetention_seq _ _ (Nat.le_refl _)

theorem runOps_seqs :
    ∀ (ops : List BufferOp) (b : Buffer),
      (runOps b ops).2 = List.range' (b.seq + 1) (countAppends ops) ∧
      (runOps b ops).1.seq = b.seq + countAppends ops := by
  intro ops
  induction ops with
  | nil => intro b; exact ⟨rfl, rfl⟩
  | cons op ops ih =>
    intro b
    cases op with
    | appendOp c =>
      have ha := append_seq b c.ts c.level c.source c.message c.data
      have ihb := ih (append b c.ts c.level c.source c.message c.data).1
      have hcount : countAppends (.appendOp c :: ops) = countAppends ops + 1 := by
        simp [countAppends, isAppendOp]
      constructor
      · show (append b c.ts c.level c.source c.message c.data).2 ::
            (runOps (append b c.ts c.level c.source c.message c.data).1 ops).2 = _
        rw [ha.2, ihb.1, ha.1, hcount, List.range'_succ]
      · show (runOps (append b c.ts c.level c.source c.message c.data).1 ops).1.seq = _
        rw [ihb.2, ha.1, hcount]
        omega
    | clearOp =>
      have ihb := ih (clear b)
      have hcount : countAppends (.clearOp :: ops) = countAppends ops := by
        simp [countAppends, isAppendOp]
      constructor
      · show (runOps (clear b) ops).2 = _
        rw [ihb.1, hcount]
        rfl
      · show (runOps (clear b) ops).1.seq = _
        rw [ihb.2, hcount]
        rfl

/-- C2.  Over any program of `append` calls interleaved with `clear`
calls, starting from a fresh buffer, the sequence numbers returned by the
`append` calls are exactly `1, 2, ..., N` in call order (`List.range' 1 N`
is that list), and the final sequence counter is `N`: strictly increasing
with no gaps and never reused, because `clear` preserves the counter. -/
theorem claim_C2 (cfg : Config) (ops : List BufferOp) :
    (runOps (Buffer.init cfg) ops).2 = List.range' 1 (countAppends ops) ∧
    (runOps (Buffer.init cfg) ops).1.seq = countAppends ops := by
  have h := runOps_seqs ops (Buffer.init cfg)
  have hseq : (Buffer.init cfg).seq = 0 := rfl
  rw [hseq] at h
  simpa using h

/-- A member's size estimate is bounded by the total of its list. -/
theorem size_le_sumSizes (e : LogEvent) :
    ∀ (l : List LogEvent), e ∈ l → e.size ≤ sumSizes l := by
  intro l
  induction l with
  | nil => intro h; cases h
  | cons a as ih =>
    intro h
    rw [sumSizes_cons]
    rcases List.mem_cons.mp h with h1 | h2
    · rw [h1]; omega
    · have := ih h2; omega

/-- The last element of a list is a member. -/
theorem mem_of_getLastQ {α : Type} : ∀ (l : List α) (e : α), l.getLast? = some e → e ∈ l := by
  intro l
  induction l with
  | nil => intro e h; cases h
  | cons a as ih =>
    intro e h
    cases as with
    | nil =>
      simp at h
      rw [h]
      exact List.mem_singleton_self e
    | cons b bs =>
      rw [List.getLast?_cons_cons] at h
      exact List.mem_cons_of_mem a (ih e h)

/-- If the newest (last) retained event alone exceeds the byte bound,
retention drains the buffer completely: every event including the last is
evicted, the byte total is zero, and the earliest retained sequence
becomes the current counter. -/
theorem enforceRetention_drain :
    ∀ (n : Nat) (b : Buffer) (e : LogEvent), b.events.length ≤ n →
      b.totalBytes = sumSizes b.events →
      b.events.getLast? = some e →
      e.size > b.config.maxBytes →
      enforceRetention b =
        { b with
          events := [],
          totalBytes := 0,
          droppedCount := b.droppedCount + b.events.length,
          earliestRetainedSeq := b.seq } := by
  intro n
  induction n with
  | zero =>
    intro b e hlen hsum hlast hbig
    rw [List.length_eq_zero.mp (Nat.le_zero.mp hlen)] at hlast
    cases hlast
  | succ n ih =>
    intro b e hlen hsum hlast hbig
    cases hev : b.events with
    | nil => rw [hev] at hlast; cases hlast
    | cons d r =>
      have hmem : e ∈ b.events := mem_of_getLastQ b.events e hlast
      have hge : e.size ≤ b.totalBytes := by
        rw [hsum]; exact size_le_sumSizes e b.events hmem
      have hcond : b.events.length > b.config.maxEvents ∨ b.totalBytes > b.config.maxBytes :=
        Or.inr (by omega)
      rw [enforceRetention_eq_cons b d r hev hcond]
      have hsum2 : b.totalBytes - d.size = sumSizes r := by
        rw [hsum, hev, sumSizes_cons]; omega
      have hlen2 : r.length ≤ n := by
        have := congrArg List.length hev
        simp at this
        omega
      by_cases hr : r = []
      · subst hr
        have hz : b.totalBytes - d.size = 0 := by
          rw [hsum2, sumSizes_nil]
        rw [enforceRetention_eq_nil _ rfl, hz]
        simp [nextEarliest]
      · have hlast2 : r.getLast? = some e := by
          obtain ⟨r0, rs, hr2⟩ := List.exists_cons_of_ne_nil hr
          rw [hev, hr2, List.getLast?_cons_cons] at hlast
          rw [hr2]
          exact hlast
        have hstep := ih
          { b with
            events := r,
            totalBytes := b.totalBytes - d.size,
            droppedCount := b.droppedCount + 1,
            earliestRetainedSeq := nextEarliest r b.seq }
          e (by dsimp only; omega) (by dsimp only; exact hsum2)
          (by dsimp only; exact hlast2) (by dsimp only; exact hbig)
        rw [hstep]
        dsimp only
        simp only [List.length_cons]
        have harith : b.droppedCount + 1 + r.length = b.droppedCount + (r.length + 1) := by omega
        rw [harith]

/-- C10.  If one `append` creates an event whose size estimate alone
exceeds `max_bytes`, retention evicts every retained event, the new one
included: the call still returns the new sequence number, but afterwards
the buffer is empty, the byte total equals the (empty) retained sum, the
new event is counted among the dropped, and the earliest retained
sequence equals the current sequence counter. -/
theorem claim_C10 (b : Buffer) (ts level source message : String) (data : JVal)
    (hsum : b.totalBytes = sumSizes b.events)
    (hbig : (newEventFor b ts level source message data).size > b.config.maxBytes) :
    (append b ts level source message data).2 = b.seq + 1 ∧
    (append b ts level source message data).1.events = [] ∧
    (append b ts level source message data).1.totalBytes = 0 ∧
    (append b ts level source message data).1.totalBytes =
      sumSizes (append b ts level source message data).1.events ∧
    (append b ts level source message data).1.droppedCount =
      b.droppedCount + b.events.length + 1 ∧
    (append b ts level source message data).1.seq = b.seq + 1 ∧
    (append b ts level source message data).1.earliestRetainedSeq =
      (append b ts level source message data).1.seq := by
  rw [append_eq]
  have hdrain := enforceRetention_drain
    (b.events.length + 1)
    { b with
      seq := b.seq + 1,
      events := b.events ++ [newEventFor b ts level source message data],
      totalBytes := b.totalBytes + (newEventFor b ts level source message data).size }
    (newEventFor b ts level source message data)
    (by simp) (by dsimp only; rw [sumSizes_append, sumSizes_cons, sumSizes_nil, hsum]; omega)
    (by simp) (by dsimp only; exact hbig)
  rw [hdrain]
  dsimp only
  refine ⟨rfl, rfl, rfl, rfl, ?_, rfl, rfl⟩
  simp only [List.length_append, List.length_cons, List.length_nil]
  omega

/-- Witness for C10 at a concrete input: `max_bytes = 5`, one small
append whose size estimate (111) exceeds it. -/
theorem claim_C10_witness :
    (append (Buffer.init ⟨10000, 5⟩) "T" "info" "s" "hello" JVal.null).2 = 1 ∧
    (append (Buffer.init ⟨10000, 5⟩) "T" "info" "s" "hello" JVal.null).1.events = [] ∧
    (append (Buffer.init ⟨10000, 5⟩) "T" "info" "s" "hello" JVal.null).1.totalBytes = 0 ∧
    (append (Buffer.init ⟨10000, 5⟩) "T" "info" "s" "hello" JVal.null).1.droppedCount = 1 ∧
    (append (Buffer.init ⟨10000, 5⟩) "T" "info" "s" "hello" JVal.null).1.earliestRetainedSeq = 1 := by
  have h := claim_C10 (Buffer.init ⟨10000, 5⟩) "T" "info" "s" "hello" JVal.null rfl (by decide)
  exact ⟨h.1, h.2.1, h.2.2.1, h.2.2.2.2.1, h.2.2.2.2.2.2.trans h.2.2.2.2.2.1⟩

/-! ### Sanitization lemmas (C3) -/

/-- Is this value the redaction-marker string? -/
def isRedactedMarker : JVal → Bool
  | .str s => s == REDACTED
  | _ => false

mutual
def allSensRedacted : JVal → Bool
  | .arr xs => allSensRedactedL xs
  | .obj fs => allSensRedactedF fs
  | _ => true
def allSensRedactedL : List JVal → Bool
  | [] => true
  | v :: vs => allSensRedacted v && allSensRedactedL vs
def allSensRedactedF : List (String × JVal) → Bool
  | [] => true
  | (k, v) :: fs =>
    (if isSensitiveKey k then isRedactedMarker v else allSensRedacted v) && allSensRedactedF fs
end

mutual

theorem sObj_all : ∀ v : JVal, allSensRedacted (sanitizeObject v) = true
  | .null => by simp [sanitizeObject, allSensRedacted]
  | .bool b => by simp [sanitizeObject, allSensRedacted]
  | .num n => by simp [sanitizeObject, allSensRedacted]
  | .str s => by simp [sanitizeObject, allSensRedacted]
  | .arr xs => by
    rw [sanitizeObject, allSensRedacted]
    exact sList_all xs
  | .obj fs => by
    rw [sanitizeObject, allSensRedacted]
    exact sFields_all fs
termination_by v => sizeOf v

theorem sList_all : ∀ xs : List JVal, allSensRedactedL (sanitizeList xs) = true
  | [] => by rw [sanitizeList, allSensRedactedL]
  | v :: vs => by
    rw [sanitizeList, allSensRedactedL, sObj_all v, sList_all vs]
    rfl
termination_by xs => sizeOf xs

theorem sFields_all : ∀ fs : List (String × JVal), allSensRedactedF (sanitizeFields fs) = true
  | [] => by rw [sanitizeFields, allSensRedactedF]
  | (k, v) :: fs => by
    rw [sanitizeFields, allSensRedactedF, sField_all k v, sFields_all fs]
    rfl
termination_by fs => sizeOf fs

theorem sField_all : ∀ (k : String) (v : JVal),
    (if isSensitiveKey k then isRedactedMarker (sanitizeField k v)
     else allSensRedacted (sanitizeField k v)) = true
  | k, .null => by
    by_cases hk : isSensitiveKey k <;>
      simp [hk, sanitizeField, isRedactedMarker, typeofIsObject, sanitizeObject, allSensRedacted]
  | k, .bool b => by
    by_cases hk : isSensitiveKey k <;>
      simp [hk, sanitizeField, isRedactedMarker, typeofIsObject, allSensRedacted]
  | k, .num n => by
    by_cases hk : isSensitiveKey k <;>
      simp [hk, sanitizeField, isRedactedMarker, typeofIsObject, allSensRedacted]
  | k, .str s => by
    by_cases hk : isSensitiveKey k <;>
      simp [hk, sanitizeField, isRedactedMarker, typeofIsObject, allSensRedacted]
  | k, .arr xs => by
    by_cases hk : isSensitiveKey k
    · simp [hk, sanitizeField, isRedactedMarker]
    · rw [if_neg hk, sanitizeField, if_neg hk,
        if_pos (by rw [typeofIsObject] : typeofIsObject (JVal.arr xs) = true)]
      exact sObj_all (.arr xs)
      exact fun s hss => JVal.noConfusion hss
  | k, .obj fs => by
    by_cases hk : isSensitiveKey k
    · simp [hk, sanitizeField, isRedactedMarker]
    · rw [if_neg hk, sanitizeField, if_neg hk,
        if_pos (by rw [typeofIsObject] : typeofIsObject (JVal.obj fs) = true)]
      exact sObj_all (.obj fs)
      exact fun s hss => JVal.noConfusion hss
termination_by k v => sizeOf v + 1

end

/-- Object sanitization is the field-wise map of `sanitizeField`. -/
theorem sanitizeFields_eq_map : ∀ fs : List (String × JVal),
    sanitizeFields fs = fs.map fun kv => (kv.1, sanitizeField kv.1 kv.2)
  | [] => by rw [sanitizeFields]; rfl
  | (k, v) :: fs => by
    rw [sanitizeFields, sanitizeFields_eq_map fs]
    rfl

/-- Array sanitization is the element-wise map of `sanitizeObject`. -/
theorem sanitizeList_eq_map : ∀ xs : List JVal,
    sanitizeList xs = xs.map sanitizeObject
  | [] => by rw [sanitizeList]; rfl
  | v :: vs => by
    rw [sanitizeList, sanitizeList_eq_map vs]
    rfl

/-- The stored message of the event built by `append` (lines 866-872). -/
theorem newEventFor_message (b : Buffer) (ts lvl src msg : String) (d : JVal) :
    (newEventFor b ts lvl src msg d).message =
      if (if LOG_LEVELS.contains lvl then lvl else "info") ≠ "debug" then
        (⟨truncateStackTrace (sanitize msg).data⟩ : String)
      else sanitize msg := rfl

/-- C3.  Appending a message carrying an authorization token of the shape
`authorization: "Bearer abc.def.ghi"` stores a message that contains the
redaction marker and no longer contains the token; and structured
sanitization redacts every sensitive-named key at any nesting depth
(`allSensRedacted` of the output) while preserving co-present non-flagged
keys: strings are still text-scrubbed, arrays sanitized element-wise,
other scalars unchanged. -/
theorem claim_C3 :
    (∀ (b : Buffer) (ts lvl src : String) (d : JVal),
      strIncludes (newEventFor b ts lvl src "authorization: \"Bearer abc.def.ghi\"" d).message
          REDACTED = true ∧
      strIncludes (newEventFor b ts lvl src "authorization: \"Bearer abc.def.ghi\"" d).message
          "abc.def.ghi" = false) ∧
    (∀ v : JVal, allSensRedacted (sanitizeObject v) = true) ∧
    (∀ fs : List (String × JVal),
      sanitizeObject (.obj fs) = .obj (fs.map fun kv => (kv.1, sanitizeField kv.1 kv.2))) ∧
    (∀ (k : String) (v : JVal), isSensitiveKey k = true → sanitizeField k v = .str REDACTED) ∧
    (∀ (k s : String), isSensitiveKey k = false → sanitizeField k (.str s) = .str (sanitize s)) ∧
    (∀ (k : String) (xs : List JVal), isSensitiveKey k = false →
      sanitizeField k (.arr xs) = .arr (xs.map sanitizeObject)) ∧
    (∀ (k : String) (n : Int), isSensitiveKey k = false → sanitizeField k (.num n) = .num n) ∧
    (∀ (k : String) (bo : Bool), isSensitiveKey k = false →
      sanitizeField k (.bool bo) = .bool bo) := by
  refine ⟨?_, sObj_all, ?_, ?_, ?_, ?_, ?_, ?_⟩
  · intro b ts lvl src d
    rw [newEventFor_message]
    by_cases hl : (if LOG_LEVELS.contains lvl then lvl else "info") ≠ "debug"
    · rw [if_pos hl]
      exact ⟨by decide, by decide⟩
    · rw [if_neg hl]
      exact ⟨by decide, by decide⟩
  · intro fs
    rw [sanitizeObject, sanitizeFields_eq_map]
  · intro k v hk
    cases v <;> simp [sanitizeField, hk]
  · intro k s hk
    simp [sanitizeField, hk, typeofIsObject]
  · intro k xs hk
    simp [sanitizeField, hk, typeofIsObject, sanitizeObject, sanitizeList_eq_map]
  · intro k n hk
    simp [sanitizeField, hk, typeofIsObject]
  · intro k bo hk
    simp [sanitizeField, hk, typeofIsObject]

/-- Witness for C3 at concrete inputs: the authorization-token message on
a fresh buffer, a flagged key, a non-flagged string key, and a nested
payload. -/
theorem claim_C3_witness :
    strIncludes (newEventFor (Buffer.init DEFAULT_CONFIG) "T" "info" "test"
        "authorization: \"Bearer abc.def.ghi\"" JVal.null).message REDACTED = true ∧
    strIncludes (newEventFor (Buffer.init DEFAULT_CONFIG) "T" "info" "test"
        "authorization: \"Bearer abc.def.ghi\"" JVal.null).message "abc.def.ghi" = false ∧
    sanitizeField "password" (.str "x") = .str REDACTED ∧
    sanitizeField "url" (.str "https://example.com") = .str (sanitize "https://example.com") ∧
    sanitizeField "status" (.num 200) = .num 200 ∧
    allSensRedacted (sanitizeObject
      (.obj [("headers", .obj [("authorization", .str "Bearer secret123")]),
             ("password", .str "userpass")])) = true :=
  ⟨(claim_C3.1 (Buffer.init DEFAULT_CONFIG) "T" "info" "test" JVal.null).1,
   (claim_C3.1 (Buffer.init DEFAULT_CONFIG) "T" "info" "test" JVal.null).2,
   claim_C3.2.2.2.1 "password" (.str "x") (by decide),
   claim_C3.2.2.2.2.1 "url" "https://example.com" (by decide),
   claim_C3.2.2.2.2.2.2.1 "status" 200 (by decide),
   claim_C3.2.1 _⟩

/-! ### Line-splitting lemmas (C7) -/

theorem charToNat_ofNat (n : Nat) (h : n < 55296) : (Char.ofNat n).toNat = n := by
  rw [Char.ofNat, dif_pos (by constructor; omega)]
  rfl

/-- Every character emitted by `natDigits` is a decimal digit. -/
theorem natDigitsF_chars (P : Char → Prop) (hP : ∀ d : Nat, d < 10 → P (Char.ofNat (48 + d))) :
    ∀ (fuel n : Nat) (acc : List Char), (∀ c ∈ acc, P c) →
      ∀ c ∈ natDigitsF fuel n acc, P c := by
  intro fuel
  induction fuel with
  | zero => intro n acc hacc; exact hacc
  | succ fuel ih =>
    intro n acc hacc c hc
    rw [natDigitsF] at hc
    by_cases hn : n < 10
    · rw [if_pos hn] at hc
      rcases List.mem_cons.mp hc with h1 | h2
      · rw [h1]; exact hP n hn
      · exact hacc c h2
    · rw [if_neg hn] at hc
      refine ih (n / 10) _ ?_ c hc
      intro c2 hc2
      rcases List.mem_cons.mp hc2 with h1 | h2
      · rw [h1]; exact hP (n % 10) (Nat.mod_lt n (by omega))
      · exact hacc c2 h2

/-- Digits of a natural number are ASCII decimal digits. -/
theorem natDigits_digit : ∀ (n : Nat), ∀ c ∈ natDigits n, 48 ≤ c.toNat ∧ c.toNat ≤ 57 := by
  intro n
  refine natDigitsF_chars (fun c => 48 ≤ c.toNat ∧ c.toNat ≤ 57) ?_ (n + 1) n []
    (fun c hc => absurd hc (List.not_mem_nil c))
  intro d hd
  rw [charToNat_ofNat (48 + d) (by omega)]
  omega

/-- `splitNl` never returns the empty list. -/
theorem splitNl_ne_nil : ∀ s : List Char, splitNl s ≠ [] := by
  intro s
  cases s with
  | nil => exact List.cons_ne_nil _ _
  | cons c rest =>
    rw [splitNl]
    split
    · exact List.cons_ne_nil _ _
    · split
      · exact List.cons_ne_nil _ _
      · exact List.cons_ne_nil _ _

/-- No line returned by `splitNl` contains a newline. -/
theorem splitNl_no_nl : ∀ (s : List Char), ∀ l ∈ splitNl s, '\n' ∉ l := by
  intro s
  induction s with
  | nil =>
    intro l hl
    rw [splitNl] at hl
    rcases List.mem_cons.mp hl with h1 | h2
    · rw [h1]; exact List.not_mem_nil _
    · exact absurd h2 (List.not_mem_nil l)
  | cons c rest ih =>
    intro l hl
    rw [splitNl] at hl
    by_cases hc : c = '\n'
    · rw [if_pos hc] at hl
      rcases List.mem_cons.mp hl with h1 | h2
      · rw [h1]; exact List.not_mem_nil _
      · exact ih l h2
    · rw [if_neg hc] at hl
      cases hsp : splitNl rest with
      | nil => exact absurd hsp (splitNl_ne_nil rest)
      | cons x xs =>
        rw [hsp] at hl
        rcases List.mem_cons.mp hl with h1 | h2
        · rw [h1]
          intro hmem
          rcases List.mem_cons.mp hmem with g1 | g2
          · exact hc g1.symm
          · exact ih x (by rw [hsp]; exact List.mem_cons_self x xs) g2
        · exact ih l (by rw [hsp]; exact List.mem_cons_of_mem x h2)

/-- Splitting a newline-free line yields just that line. -/
theorem splitNl_no_nl_eq : ∀ (l : List Char), '\n' ∉ l → splitNl l = [l] := by
  intro l
  induction l with
  | nil => intro _; rfl
  | cons c rest ih =>
    intro h
    rw [splitNl, if_neg (fun hc => h (by rw [hc]; exact List.mem_cons_self _ _)),
      ih (fun hm => h (List.mem_cons_of_mem c hm))]

/-- Splitting a newline-free prefix followed by a newline. -/
theorem splitNl_append : ∀ (l rest : List Char), '\n' ∉ l →
    splitNl (l ++ '\n' :: rest) = l :: splitNl rest := by
  intro l
  induction l with
  | nil =>
    intro rest _
    rw [List.nil_append, splitNl, if_pos rfl]
  | cons c cl ih =>
    intro rest h
    rw [List.cons_append, splitNl,
      if_neg (fun hc => h (by rw [hc]; exact List.mem_cons_self _ _)),
      ih rest (fun hm => h (List.mem_cons_of_mem c hm))]

/-- `join('\n')` then `split('\n')` is the identity on nonempty lists of
newline-free lines. -/
theorem splitNl_joinNl : ∀ (ls : List (List Char)), (∀ l ∈ ls, '\n' ∉ l) → ls ≠ [] →
    splitNl (joinNl ls) = ls := by
  intro ls
  induction ls with
  | nil => intro _ hne; exact absurd rfl hne
  | cons l ms ih =>
    intro hno _
    cases ms with
    | nil =>
      rw [joinNl]
      exact splitNl_no_nl_eq l (hno l (List.mem_cons_self _ _))
    | cons m ms2 =>
      rw [joinNl, splitNl_append l _ (hno l (List.mem_cons_self _ _)),
        ih (fun x hx => hno x (List.mem_cons_of_mem l hx)) (List.cons_ne_nil _ _)]

/-- `joinNl` over an appended nonempty trailer. -/
theorem joinNl_concat : ∀ (ls : List (List Char)) (t : List Char), ls ≠ [] →
    joinNl (ls ++ [t]) = joinNl ls ++ '\n' :: t := by
  intro ls
  induction ls with
  | nil => intro t hne; exact absurd rfl hne
  | cons l ms ih =>
    intro t _
    cases ms with
    | nil => rfl
    | cons m ms2 =>
      have ihh := ih t (List.cons_ne_nil _ _)
      show l ++ '\n' :: joinNl (m :: ms2 ++ [t]) = (l ++ '\n' :: joinNl (m :: ms2)) ++ '\n' :: t
      rw [ihh, List.append_assoc]
      rfl

/-- The trailer line reporting omitted stack frames. -/
def stackTrailer (omitted : Nat) : List Char :=
  "... (".data ++ natDigits omitted ++ " more stack frames)".data

theorem jsSliceEnd_nonneg (l : List (List Char)) (e : Int) (h0 : 0 ≤ e) (hle : e ≤ l.length) :
    jsSliceEnd l e = l.take e.toNat := by
  rw [jsSliceEnd]
  rw [if_neg (by omega)]
  congr 1
  omega

theorem truncate_spec_stack (msg : List Char) (i : Nat)
    (hlen : (splitNl msg).length > MAX_STACK_LINES)
    (hidx : (splitNl msg).findIdx? isStackLine = some i)
    (hi : i ≤ MAX_STACK_LINES) :
    truncateStackTrace msg =
      joinNl ((splitNl msg).take i ++ ((splitNl msg).drop i).take (MAX_STACK_LINES - i) ++
        [stackTrailer ((splitNl msg).length - MAX_STACK_LINES)]) := by
  rw [truncateStackTrace]
  rw [if_neg (by omega), hidx]
  dsimp only
  have ht : (List.take i (splitNl msg)).length = i := by
    simp only [List.length_take]
    omega
  have hd : (List.drop i (splitNl msg)).length = (splitNl msg).length - i :=
    List.length_drop i _
  rw [ht, hd]
  rw [if_neg (by simp only [MAX_STACK_LINES] at hlen hi ⊢; push_cast; omega)]
  rw [jsSliceEnd_nonneg _ _
    (by simp only [MAX_STACK_LINES] at hi ⊢; push_cast; omega)
    (by rw [hd]; simp only [MAX_STACK_LINES] at hlen hi ⊢; push_cast; omega)]
  have htn : ((MAX_STACK_LINES : Int) - (i : Int)).toNat = MAX_STACK_LINES - i := by
    simp only [MAX_STACK_LINES] at hi ⊢
    omega
  rw [htn]
  have harr : ((((splitNl msg).length - i : Nat) : Int) - ((MAX_STACK_LINES : Int) - (i : Int)))
      = (((splitNl msg).length - MAX_STACK_LINES : Nat) : Int) := by
    simp only [MAX_STACK_LINES] at hlen hi ⊢
    push_cast
    omega
  rw [harr]
  rfl

theorem truncate_spec_nostack (msg : List Char)
    (hlen : (splitNl msg).length > MAX_STACK_LINES)
    (hidx : (splitNl msg).findIdx? isStackLine = none) :
    truncateStackTrace msg =
      joinNl ((splitNl msg).take MAX_STACK_LINES ++ ["... (truncated)".data]) := by
  rw [truncateStackTrace]
  rw [if_neg (by omega), hidx]
  rw [joinNl_concat _ _ (List.length_pos.mp (by
    simp only [List.length_take]
    simp only [MAX_STACK_LINES] at hlen ⊢
    omega))]

theorem stackTrailer_no_nl (n : Nat) : '\n' ∉ stackTrailer n := by
  intro hmem
  rw [stackTrailer] at hmem
  rcases List.mem_append.mp hmem with h1 | h2
  · rcases List.mem_append.mp h1 with h3 | h4
    · revert h3; decide
    · have := natDigits_digit n _ h4
      simp at this
  · revert h2; decide

theorem no_nl_parts_stack (sm : List Char) (i : Nat) :
    ∀ l ∈ (splitNl sm).take i ++ ((splitNl sm).drop i).take (MAX_STACK_LINES - i) ++
      [stackTrailer ((splitNl sm).length - MAX_STACK_LINES)], '\n' ∉ l := by
  intro l hl
  rcases List.mem_append.mp hl with h1 | h2
  · rcases List.mem_append.mp h1 with h3 | h4
    · exact splitNl_no_nl sm l (List.mem_of_mem_take h3)
    · exact splitNl_no_nl sm l (List.mem_of_mem_drop (List.mem_of_mem_take h4))
  · rcases List.mem_singleton.mp h2 with h
    rw [h]
    exact stackTrailer_no_nl _

theorem coercedLevel_ne_debug (lvl : String) (h : lvl ≠ "debug") :
    (if LOG_LEVELS.contains lvl then lvl else "info") ≠ "debug" := by
  by_cases hc : LOG_LEVELS.contains lvl
  · rw [if_pos hc]; exact h
  · rw [if_neg hc]; decide

/-- C7 (amended).  For an `append` at a level other than `debug` whose
sanitized message has more than `MAX_STACK_LINES` (40) lines: when the
first stack-frame-shaped line (trimmed form beginning `at `) occurs at an
index `i ≤ 40`, the lines before it are preserved in full, the stack is
cut to the remaining budget, and exactly one trailer line reports the
`total - 40` omitted frames, the stored message having exactly 41 lines;
when no stack-frame line exists the stored message is the first 40 lines
plus a `(truncated)` trailer; the same message appended at `debug` level
is stored intact.  (The original claim, with no bound on the index of the
first stack line, fails: see the counterexample, where the stack starts
at line 41 and the stored message keeps 51 lines.) -/
theorem claim_C7 :
    (∀ (b : Buffer) (ts lvl src msg : String) (d : JVal), lvl ≠ "debug" →
      (splitNl (sanitize msg).data).length > MAX_STACK_LINES →
      (∀ i, (splitNl (sanitize msg).data).findIdx? isStackLine = some i → i ≤ MAX_STACK_LINES →
        splitNl (newEventFor b ts lvl src msg d).message.data =
          (splitNl (sanitize msg).data).take i ++
            ((splitNl (sanitize msg).data).drop i).take (MAX_STACK_LINES - i) ++
            [stackTrailer ((splitNl (sanitize msg).data).length - MAX_STACK_LINES)] ∧
        (splitNl (newEventFor b ts lvl src msg d).message.data).length = MAX_STACK_LINES + 1) ∧
      ((splitNl (sanitize msg).data).findIdx? isStackLine = none →
        splitNl (newEventFor b ts lvl src msg d).message.data =
          (splitNl (sanitize msg).data).take MAX_STACK_LINES ++ ["... (truncated)".data] ∧
        (splitNl (newEventFor b ts lvl src msg d).message.data).length = MAX_STACK_LINES + 1)) ∧
    (∀ (b : Buffer) (ts src msg : String) (d : JVal),
      (newEventFor b ts "debug" src msg d).message = sanitize msg) := by
  constructor
  · intro b ts lvl src msg d hlvl hlen
    have hmsg : (newEventFor b ts lvl src msg d).message.data
        = truncateStackTrace (sanitize msg).data := by
      rw [newEventFor_message, if_pos (coercedLevel_ne_debug lvl hlvl)]
    constructor
    · intro i hidx hi
      rw [hmsg, truncate_spec_stack _ i hlen hidx hi]
      rw [splitNl_joinNl _ (no_nl_parts_stack (sanitize msg).data i) (by simp)]
      refine ⟨rfl, ?_⟩
      simp only [List.length_append, List.length_take, List.length_drop, List.length_singleton]
      simp only [MAX_STACK_LINES] at hlen hi ⊢
      omega
    · intro hidx
      rw [hmsg, truncate_spec_nostack _ hlen hidx]
      have hno : ∀ l ∈ (splitNl (sanitize msg).data).take MAX_STACK_LINES ++
          ["... (truncated)".data], '\n' ∉ l := by
        intro l hl
        rcases List.mem_append.mp hl with h1 | h2
        · exact splitNl_no_nl _ l (List.mem_of_mem_take h1)
        · rw [List.mem_singleton.mp h2]
          decide
      rw [splitNl_joinNl _ hno (by simp)]
      refine ⟨rfl, ?_⟩
      simp only [List.length_append, List.length_take, List.length_singleton]
      simp only [MAX_STACK_LINES] at hlen ⊢
      omega
  · intro b ts src msg d
    rw [newEventFor_message, if_neg (by decide)]

/-- The concrete message refuting C7 as stated: 41 plain lines followed by
10 stack-frame lines. -/
def cexMsgC7 : String := ⟨joinNl (List.replicate 41 ['x'] ++ List.replicate 10 "at f".data)⟩

/-- Counterexample to C7 as stated: a non-debug append whose sanitized
message has 51 lines with its first stack-frame line at index 41 stores a
51-line message (not 41), and its trailer reports 11 omitted frames even
though only one was dropped. -/
theorem claim_C7_counterexample :
    (splitNl (sanitize cexMsgC7).data).length = 51 ∧
    (splitNl (sanitize cexMsgC7).data).findIdx? isStackLine = some 41 ∧
    (splitNl (newEventFor (Buffer.init DEFAULT_CONFIG) "T" "error" "test" cexMsgC7
        JVal.null).message.data).length = 51 ∧
    (splitNl (newEventFor (Buffer.init DEFAULT_CONFIG) "T" "error" "test" cexMsgC7
        JVal.null).message.data).getLast? = some "... (11 more stack frames)".data :=
  ⟨by decide, by decide, by decide, by decide⟩

/-- The concrete message for the C7 witness: one header line and 41
stack-frame lines. -/
def wMsgC7 : String := ⟨joinNl (["E".data] ++ List.replicate 41 "at f".data)⟩

/-- Witness for C7 at a concrete input: header preserved, stack cut to 39
frames, trailer reporting 2 omitted; at `debug` the message is intact. -/
theorem claim_C7_witness :
    splitNl (newEventFor (Buffer.init DEFAULT_CONFIG) "T" "error" "test" wMsgC7
        JVal.null).message.data =
      (splitNl (sanitize wMsgC7).data).take 1 ++
        ((splitNl (sanitize wMsgC7).data).drop 1).take 39 ++ [stackTrailer 2] ∧
    (splitNl (newEventFor (Buffer.init DEFAULT_CONFIG) "T" "error" "test" wMsgC7
        JVal.null).message.data).length = 41 ∧
    (newEventFor (Buffer.init DEFAULT_CONFIG) "T" "debug" "test" wMsgC7 JVal.null).message =
      sanitize wMsgC7 := by
  have h := (claim_C7.1 (Buffer.init DEFAULT_CONFIG) "T" "error" "test" wMsgC7 JVal.null
    (by decide) (by decide)).1 1 (by decide) (by decide)
  exact ⟨h.1, h.2, claim_C7.2 (Buffer.init DEFAULT_CONFIG) "T" "test" wMsgC7 JVal.null⟩

/-! ### Character and digit lemmas (cursor codec) -/

theorem charOfNat_toNat (c : Char) : Char.ofNat c.toNat = c := by
  rw [Char.ofNat, dif_pos (by exact c.valid)]
  rfl

theorem char_eq_iff_toNat (c d : Char) : c = d ↔ c.toNat = d.toNat := by
  constructor
  · intro h; rw [h]
  · intro h
    have := congrArg Char.ofNat h
    rwa [charOfNat_toNat, charOfNat_toNat] at this

theorem isDigit_iff_bounds (c : Char) :
    c.isDigit = true ↔ 48 ≤ c.toNat ∧ c.toNat ≤ 57 := by
  rw [Char.isDigit]
  simp only [Bool.and_eq_true, decide_eq_true_eq, ge_iff_le, UInt32.le_def, BitVec.le_def]
  exact Iff.rfl

theorem char_ne_of_toNat (c d : Char) (m : Nat) (hd : d.toNat = m) (hc : c.toNat ≠ m) :
    ¬(c = d) := by
  intro h
  rw [h, hd] at hc
  exact hc rfl

theorem beq_false_of_toNat (c d : Char) (m : Nat) (hd : d.toNat = m) (hc : c.toNat ≠ m) :
    (c == d) = false := by
  rw [beq_eq_false_iff_ne]
  exact char_ne_of_toNat c d m hd hc

theorem isWsJson_false_of_digit (c : Char) (h1 : 48 ≤ c.toNat) (h2 : c.toNat ≤ 57) :
    isWsJson c = false := by
  rw [isWsJson, beq_false_of_toNat c ' ' 32 rfl (by omega),
    beq_false_of_toNat c '\t' 9 rfl (by omega),
    beq_false_of_toNat c '\n' 10 rfl (by omega),
    beq_false_of_toNat c '\r' 13 rfl (by omega)]
  rfl

/-- `skipWs` is the identity on input whose head is not whitespace. -/
theorem skipWs_cons_not_ws (c : Char) (s : List Char) (h : isWsJson c = false) :
    skipWs (c :: s) = c :: s := by
  rw [skipWs, List.dropWhile_cons, h]
  rfl

/-- The accumulator of `natDigitsF` is a suffix. -/
theorem natDigitsF_acc : ∀ (fuel n : Nat) (acc : List Char),
    natDigitsF fuel n acc = natDigitsF fuel n [] ++ acc := by
  intro fuel
  induction fuel with
  | zero => intro n acc; rfl
  | succ fuel ih =>
    intro n acc
    rw [natDigitsF, natDigitsF]
    by_cases hn : n < 10
    · rw [if_pos hn, if_pos hn]
      rfl
    · rw [if_neg hn, if_neg hn, ih (n / 10) (Char.ofNat (48 + n % 10) :: acc),
        ih (n / 10) [Char.ofNat (48 + n % 10)], List.append_assoc]
      rfl

/-- `natDigitsF` does not depend on the fuel once it exceeds `n`. -/
theorem natDigitsF_fuel_inv : ∀ (n f1 f2 : Nat), n < f1 → n < f2 →
    natDigitsF f1 n [] = natDigitsF f2 n [] := by
  intro n
  induction n using Nat.strong_induction_on with
  | _ n ih =>
    intro f1 f2 h1 h2
    match f1, h1 with
    | a + 1, h1 =>
      match f2, h2 with
      | b + 1, h2 =>
        rw [natDigitsF, natDigitsF]
        by_cases hn : n < 10
        · rw [if_pos hn, if_pos hn]
        · rw [if_neg hn, if_neg hn, natDigitsF_acc a, natDigitsF_acc b,
            ih (n / 10) (by omega) a b (by omega) (by omega)]

/-- For small `n`, one digit. -/
theorem natDigits_small (n : Nat) (h : n < 10) : natDigits n = [Char.ofNat (48 + n)] := by
  rw [natDigits, natDigitsF, if_pos h]

/-- For large `n`, the digits of `n / 10` followed by the last digit. -/
theorem natDigits_decomp (n : Nat) (h : 10 ≤ n) :
    natDigits n = natDigits (n / 10) ++ [Char.ofNat (48 + n % 10)] := by
  rw [natDigits, natDigitsF, if_neg (by omega), natDigitsF_acc,
    natDigitsF_fuel_inv (n / 10) n (n / 10 + 1) (by omega) (by omega)]
  rfl

theorem natDigits_ne_nil (n : Nat) : natDigits n ≠ [] := by
  by_cases h : n < 10
  · rw [natDigits_small n h]
    exact List.cons_ne_nil _ _
  · rw [natDigits_decomp n (by omega)]
    simp

/-- The numeric value accumulated over a digit run. -/
def digitsVal (acc : Nat) (ds : List Char) : Nat :=
  ds.foldl (fun a c => a * 10 + (c.toNat - 48)) acc

theorem digitsVal_append (acc : Nat) (xs ys : List Char) :
    digitsVal acc (xs ++ ys) = digitsVal (digitsVal acc xs) ys := by
  rw [digitsVal, digitsVal, digitsVal, List.foldl_append]

/-- The digits of `n` evaluate back to `n`. -/
theorem natDigits_val : ∀ n : Nat, digitsVal 0 (natDigits n) = n := by
  intro n
  induction n using Nat.strong_induction_on with
  | _ n ih =>
    by_cases h : n < 10
    · rw [natDigits_small n h, digitsVal, List.foldl_cons, List.foldl_nil,
        charToNat_ofNat (48 + n) (by omega)]
      omega
    · rw [natDigits_decomp n (by omega), digitsVal_append, ih (n / 10) (by omega),
        digitsVal, List.foldl_cons, List.foldl_nil, charToNat_ofNat (48 + n % 10) (by omega)]
      omega

/-- A multi-digit number does not start with the digit zero. -/
theorem natDigits_head_ne_zero : ∀ (n : Nat), n ≠ 0 → ∀ (d : Char) (ds : List Char),
    natDigits n = d :: ds → d.toNat ≠ 48 := by
  intro n
  induction n using Nat.strong_induction_on with
  | _ n ih =>
    intro hn d ds hd
    by_cases h : n < 10
    · rw [natDigits_small n h] at hd
      cases hd
      rw [charToNat_ofNat (48 + n) (by omega)]
      omega
    · rw [natDigits_decomp n (by omega)] at hd
      cases he : natDigits (n / 10) with
      | nil => exact absurd he (natDigits_ne_nil _)
      | cons e es =>
        rw [he, List.cons_append] at hd
        cases hd
        exact ih (n / 10) (by omega) (by omega) d es he

/-- `pDigits` consumes exactly a digit run. -/
theorem pDigits_run : ∀ (ds : List Char) (acc : Nat) (rest : List Char),
    (∀ c ∈ ds, c.isDigit = true) → headIsDigit rest = false →
    pDigits acc (ds ++ rest) = (digitsVal acc ds, rest) := by
  intro ds
  induction ds with
  | nil =>
    intro acc rest _ hrest
    cases rest with
    | nil => rfl
    | cons c r =>
      rw [List.nil_append, pDigits]
      rw [headIsDigit] at hrest
      rw [hrest]
      rfl
  | cons d ds ih =>
    intro acc rest hds hrest
    rw [List.cons_append, pDigits, hds d (List.mem_cons_self _ _)]
    rw [if_pos rfl, ih _ rest (fun c hc => hds c (List.mem_cons_of_mem d hc)) hrest]
    rfl

/-- `pNumber` parses exactly the digits of a natural number. -/
theorem pNumber_nat (n : Nat) (rest : List Char)
    (hrest : headIsDigit rest = false) (hfrac : startsFracExp rest = false) :
    pNumber (natDigits n ++ rest) = some ((n : Int), rest) := by
  cases hd : natDigits n with
  | nil => exact absurd hd (natDigits_ne_nil n)
  | cons d ds =>
    have hdig := natDigits_digit n
    rw [hd] at hdig
    have hdd := hdig d (List.mem_cons_self _ _)
    rw [List.cons_append, pNumber.eq_def]
    dsimp only
    rw [if_neg (char_ne_of_toNat d '-' 45 rfl (by omega))]
    rw [if_pos (isDigit_iff_bounds d |>.mpr ⟨hdd.1, hdd.2⟩)]
    have hlz : ¬(d = '0' ∧ headIsDigit (ds ++ rest) = true) := by
      by_cases h10 : n < 10
      · have : ds = [] := by
          rw [natDigits_small n h10] at hd
          cases hd
          rfl
        rw [this, List.nil_append]
        intro hcon
        rw [hrest] at hcon
        exact Bool.false_ne_true hcon.2
      · intro hcon
        have := natDigits_head_ne_zero n (by omega) d ds hd
        rw [hcon.1] at this
        exact this rfl
    rw [if_neg (by
      intro hcon
      exact hlz ⟨hcon.1, hcon.2⟩)]
    rw [pDigits_run ds (d.toNat - 48) rest
      (fun c hc => (isDigit_iff_bounds c).mpr (hdig c (List.mem_cons_of_mem d hc))) hrest]
    have hval : digitsVal (d.toNat - 48) ds = n := by
      have h0 := natDigits_val n
      rw [hd, digitsVal, List.foldl_cons] at h0
      rw [digitsVal]
      rw [show 0 * 10 + (d.toNat - 48) = d.toNat - 48 from by omega] at h0
      exact h0
    simp [hval, hfrac]

/-- Every 6-bit value decodes back through the alphabet. -/
theorem b64Val_b64Char : ∀ v : Nat, v < 64 → b64Val (b64Char v) = some v := by decide

theorem b64_roundtrip_aux : ∀ (k : Nat) (bs : List Nat), bs.length ≤ k →
    (∀ b ∈ bs, b < 256) → b64Decode (b64Encode bs) = bs := by
  intro k
  induction k with
  | zero =>
    intro bs hlen _
    have hnil : bs = [] := List.eq_nil_of_length_eq_zero (Nat.le_zero.mp hlen)
    subst hnil
    rfl
  | succ k ih =>
    intro bs hlen hb
    match bs with
    | [] => rfl
    | [b1] =>
      have h1 : b1 < 256 := hb b1 (by simp)
      rw [b64Encode, b64Decode,
        List.filterMap_cons_some (b64Val_b64Char _ (by omega)),
        List.filterMap_cons_some (b64Val_b64Char _ (by omega)),
        List.filterMap_nil]
      simp only [b64Sextets, List.cons.injEq, and_true]
      omega
    | [b1, b2] =>
      have h1 : b1 < 256 := hb b1 (by simp)
      have h2 : b2 < 256 := hb b2 (by simp)
      rw [b64Encode, b64Decode,
        List.filterMap_cons_some (b64Val_b64Char _ (by omega)),
        List.filterMap_cons_some (b64Val_b64Char _ (by omega)),
        List.filterMap_cons_some (b64Val_b64Char _ (by omega)),
        List.filterMap_nil]
      simp only [b64Sextets, List.cons.injEq, and_true]
      omega
    | b1 :: b2 :: b3 :: rest =>
      have h1 : b1 < 256 := hb b1 (by simp)
      have h2 : b2 < 256 := hb b2 (by simp)
      have h3 : b3 < 256 := hb b3 (by simp)
      have hlen' : rest.length ≤ k := by
        simp only [List.length_cons] at hlen
        omega
      have hr := ih rest hlen' (fun b hb' => hb b (by simp [hb']))
      rw [b64Decode] at hr
      rw [b64Encode, b64Decode,
        List.filterMap_cons_some (b64Val_b64Char _ (by omega)),
        List.filterMap_cons_some (b64Val_b64Char _ (by omega)),
        List.filterMap_cons_some (b64Val_b64Char _ (by omega)),
        List.filterMap_cons_some (b64Val_b64Char _ (by omega))]
      rw [b64Sextets]
      simp only [List.cons.injEq]
      exact ⟨by omega, by omega, by omega, hr⟩

/-- Base64url decode-after-encode is the identity on byte lists. -/
theorem b64_roundtrip (bs : List Nat) (h : ∀ b ∈ bs, b < 256) :
    b64Decode (b64Encode bs) = bs :=
  b64_roundtrip_aux bs.length bs le_rfl h

/-- Decoding the bytes of an ASCII string restores the string. -/
theorem bytesToStr_strBytes (s : String) (h : ∀ c ∈ s.data, c.toNat < 128) :
    bytesToStr (strBytes s) = s := by
  cases s with
  | mk data =>
    rw [bytesToStr, strBytes, List.map_map]
    have hmap : data.map ((fun b => if b < 128 then Char.ofNat b else Char.ofNat 0xFFFD) ∘
        Char.toNat) = data.map id := by
      apply List.map_congr_left
      intro c hc
      simp only [Function.comp_apply, id_eq]
      rw [if_pos (h c hc), charOfNat_toNat]
    rw [hmap, List.map_id]

/-- A string body free of quotes, backslashes and control characters is
consumed up to the closing quote. -/
theorem pStringBodyF_closes : ∀ (body : List Char) (f : Nat) (r : List Char),
    (∀ c ∈ body, c ≠ '"' ∧ c ≠ '\\' ∧ 32 ≤ c.toNat) →
    body.length + 1 ≤ f →
    pStringBodyF f (body ++ '"' :: r) = some (body, r) := by
  intro body
  induction body with
  | nil =>
    intro f r _ hf
    cases f with
    | zero => omega
    | succ f' =>
      rw [List.nil_append, pStringBodyF.eq_def]
      dsimp only
      rw [if_pos rfl]
  | cons c cs ih =>
    intro f r hok hf
    cases f with
    | zero => simp at hf
    | succ f' =>
      have hc := hok c (List.mem_cons_self _ _)
      rw [List.cons_append, pStringBodyF.eq_def]
      dsimp only
      rw [if_neg hc.1, if_neg hc.2.1,
        if_neg (by omega : ¬c.toNat < 32),
        ih f' r (fun d hd => hok d (List.mem_cons_of_mem c hd)) (by
          simp only [List.length_cons] at hf
          omega)]
      rfl

/-- `pStringBody` on a clean body followed by a closing quote. -/
theorem pStringBody_closes (body r : List Char)
    (h : ∀ c ∈ body, c ≠ '"' ∧ c ≠ '\\' ∧ 32 ≤ c.toNat) :
    pStringBody (body ++ '"' :: r) = some (body, r) := by
  rw [pStringBody]
  refine pStringBodyF_closes body _ r h ?_
  simp only [List.length_append, List.length_cons]
  omega

/-- A value whose text is the digits of `m` parses as the number `m`. -/
theorem pValue_num (m : Nat) (f : Nat) (rest : List Char)
    (h1 : headIsDigit rest = false) (h2 : startsFracExp rest = false) :
    pValue (f + 1) (natDigits m ++ rest) = some (.num (m : Int), rest) := by
  cases hd : natDigits m with
  | nil => exact absurd hd (natDigits_ne_nil m)
  | cons d ds =>
    have hb := natDigits_digit m
    rw [hd] at hb
    have hdd := hb d (List.mem_cons_self _ _)
    rw [List.cons_append, pValue,
      skipWs_cons_not_ws d _ (isWsJson_false_of_digit d hdd.1 hdd.2)]
    dsimp only
    rw [if_neg (char_ne_of_toNat d '{' 123 rfl (by omega)),
      if_neg (char_ne_of_toNat d '[' 91 rfl (by omega)),
      if_neg (char_ne_of_toNat d '"' 34 rfl (by omega)),
      if_neg (char_ne_of_toNat d 't' 116 rfl (by omega)),
      if_neg (char_ne_of_toNat d 'f' 102 rfl (by omega)),
      if_neg (char_ne_of_toNat d 'n' 110 rfl (by omega)),
      ← List.cons_append, ← hd, pNumber_nat m rest h1 h2]
    rfl

/-- The cursor payload `JSON.stringify` produces: a fixed prefix, the
digits of the sequence number, and a closing brace. -/
theorem cursor_chars (n : Nat) :
    stringify (.obj [("v", .num 1), ("s", .num (n : Int))]) =
      '{' :: "\"v\":1,\"s\":".data ++ natDigits n ++ ['}'] := rfl

/-- An encoded cursor is never the empty string. -/
theorem encodeCursor_ne_empty (s : Int) : encodeCursor s ≠ "" := by
  rw [encodeCursor]
  intro hcon
  have hdata : b64Encode (strBytes (stringifyStr (.obj [("v", .num 1), ("s", .num s)]))) =
      [] := congrArg String.data hcon
  have hchars : ∃ c cs, strBytes (stringifyStr (.obj [("v", .num 1), ("s", .num s)])) =
      c :: cs := by
    rw [stringifyStr, strBytes]
    simp only [stringify]
    exact ⟨_, _, rfl⟩
  obtain ⟨c, cs, hc⟩ := hchars
  rw [hc] at hdata
  cases cs with
  | nil => exact List.noConfusion hdata
  | cons c2 cs2 =>
    cases cs2 with
    | nil => exact List.noConfusion hdata
    | cons c3 cs3 => exact List.noConfusion hdata

/-- The character list of the version-1 cursor payload for sequence `n`. -/
def cursorChars (n : Nat) : List Char :=
  '{' :: '"' :: 'v' :: '"' :: ':' :: '1' :: ',' :: '"' :: 's' :: '"' :: ':' ::
    (natDigits n ++ ['}'])

/-- `JSON.stringify` of the cursor object yields exactly the cursor text. -/
theorem cursor_chars_eq (n : Nat) :
    stringify (.obj [("v", .num 1), ("s", .num (n : Int))]) = cursorChars n := rfl

theorem stringifyStr_data (v : JVal) : (stringifyStr v).data = stringify v := rfl

/-- One unfolding step of the member loop on a quote-headed input. -/
theorem pMembersG_cons_quote (pv : List Char → Option (JVal × List Char)) (fuel : Nat)
    (rest : List Char) (acc : List (String × JVal)) :
    pMembersG pv (fuel + 1) ('"' :: rest) acc =
      (match pStringBody rest with
       | none => none
       | some (kcs, r1) =>
         match skipWs r1 with
         | ':' :: r3 =>
           match pv r3 with
           | none => none
           | some (v, r4) =>
             match skipWs r4 with
             | ',' :: r6 => pMembersG pv fuel r6 (acc ++ [(⟨kcs⟩, v)])
             | '}' :: r6 => some (.obj (acc ++ [(⟨kcs⟩, v)]), r6)
             | _ => none
         | _ => none) := rfl

/-- Parsing the cursor payload recovers the two-field object. -/
theorem pValue_cursor (n : Nat) (f : Nat) :
    pValue (f + 2) (cursorChars n) =
      some (.obj [("v", .num 1), ("s", .num (n : Int))], []) := by
  show pMembersG (pValue (f + 1))
      (('"' :: 'v' :: '"' :: ':' :: '1' :: ',' :: '"' :: 's' :: '"' :: ':' ::
        (natDigits n ++ ['}'])).length + 1)
      ('"' :: 'v' :: '"' :: ':' :: '1' :: ',' :: '"' :: 's' :: '"' :: ':' ::
        (natDigits n ++ ['}'])) []
    = some (.obj [("v", .num 1), ("s", .num (n : Int))], [])
  rw [show ('"' :: 'v' :: '"' :: ':' :: '1' :: ',' :: '"' :: 's' :: '"' :: ':' ::
      (natDigits n ++ ['}'])).length + 1 = ((natDigits n).length + 11) + 1 from by
    simp only [List.length_cons, List.length_append, List.length_nil]]
  rw [pMembersG_cons_quote]
  rw [show ('v' :: '"' :: ':' :: '1' :: ',' :: '"' :: 's' :: '"' :: ':' ::
      (natDigits n ++ ['}']) : List Char)
    = ['v'] ++ '"' :: (':' :: '1' :: ',' :: '"' :: 's' :: '"' :: ':' ::
      (natDigits n ++ ['}'])) from rfl]
  rw [pStringBody_closes ['v'] _ (by decide)]
  simp only
  rw [skipWs_cons_not_ws ':' _ rfl]
  simp only
  rw [show ('1' :: ',' :: '"' :: 's' :: '"' :: ':' :: (natDigits n ++ ['}']) : List Char)
      = natDigits 1 ++ (',' :: '"' :: 's' :: '"' :: ':' :: (natDigits n ++ ['}']))
      from rfl]
  rw [pValue_num 1 f (',' :: '\"' :: 's' :: '\"' :: ':' :: (natDigits n ++ ['}'])) rfl rfl]
  simp only
  rw [skipWs_cons_not_ws ',' _ rfl]
  simp only
  rw [show (natDigits n).length + 11 = ((natDigits n).length + 10) + 1 from by omega]
  rw [pMembersG_cons_quote]
  rw [show ('s' :: '"' :: ':' :: (natDigits n ++ ['}']) : List Char)
    = ['s'] ++ '"' :: (':' :: (natDigits n ++ ['}'])) from rfl]
  rw [pStringBody_closes ['s'] _ (by decide)]
  simp only
  rw [skipWs_cons_not_ws ':' _ rfl]
  simp only
  rw [pValue_num n f ['}'] rfl rfl]
  rfl

/-- `JSON.parse` of the cursor payload text. -/
theorem parse_cursor (n : Nat) :
    jsonParse ⟨cursorChars n⟩ = some (.obj [("v", .num 1), ("s", .num (n : Int))]) := by
  rw [jsonParse]
  rw [show (⟨cursorChars n⟩ : String).data = cursorChars n from rfl]
  rw [show (⟨cursorChars n⟩ : String).length + 1 = ((natDigits n).length + 11) + 2 from by
    rw [show (⟨cursorChars n⟩ : String).length = (cursorChars n).length from rfl]
    simp only [cursorChars, List.length_cons, List.length_append, List.length_nil]]
  rw [pValue_cursor n ((natDigits n).length + 11)]
  rfl

/-- Decoding an encoded cursor recovers the sequence number. -/
theorem decode_encode (n : Nat) :
    decodeCursorOpt (encodeCursor (n : Int)) = some (n : Int) := by
  have hchars : ∀ c ∈ (stringifyStr (.obj [("v", .num 1), ("s", .num (n : Int))])).data,
      c.toNat < 128 := by
    intro c hc
    rw [stringifyStr_data, cursor_chars_eq] at hc
    simp only [cursorChars, List.mem_cons, List.mem_append, List.mem_singleton,
      List.not_mem_nil, or_false] at hc
    rcases hc with h|h|h|h|h|h|h|h|h|h|h|h
    · subst h; decide
    · subst h; decide
    · subst h; decide
    · subst h; decide
    · subst h; decide
    · subst h; decide
    · subst h; decide
    · subst h; decide
    · subst h; decide
    · subst h; decide
    · subst h; decide
    · rcases h with h|h
      · have := natDigits_digit n c h
        omega
      · subst h; decide
  have hbytes : ∀ b ∈ strBytes (stringifyStr (.obj [("v", .num 1), ("s", .num (n : Int))])),
      b < 256 := by
    intro b hb
    rw [strBytes] at hb
    obtain ⟨c, hc, rfl⟩ := List.mem_map.mp hb
    have := hchars c hc
    omega
  have h1 : bytesToStr (b64Decode (encodeCursor (n : Int)).data) =
      stringifyStr (.obj [("v", .num 1), ("s", .num (n : Int))]) := by
    rw [show (encodeCursor (n : Int)).data =
        b64Encode (strBytes (stringifyStr (.obj [("v", .num 1), ("s", .num (n : Int))])))
        from rfl,
      b64_roundtrip _ hbytes, bytesToStr_strBytes _ hchars]
  rw [decodeCursorOpt, h1]
  rw [show stringifyStr (.obj [("v", .num 1), ("s", .num (n : Int))]) =
      (⟨cursorChars n⟩ : String) from congrArg String.mk (cursor_chars_eq n)]
  rw [parse_cursor n]
  rfl

/-! ### Read-path decomposition -/

/-- The requested starting sequence of a `read` call (lines 909-911). -/
def readStartSeq (opts : ReadOptions) : Int :=
  match opts.cursor with
  | some c => if c ≠ "" then decodeCursor c else 0
  | none => 0

/-- The effective item limit (line 913). -/
def readEffLimit (opts : ReadOptions) : Int := min (max 1 opts.limit) 1000

/-- The effective byte cap (line 914). -/
def readEffMaxBytes (opts : ReadOptions) : Int := min (max 1000 opts.maxBytes) 1000000

/-- The initial events of the result: the synthetic warning on a stale
cursor, nothing otherwise (lines 925-935). -/
def readInitEvents (b : Buffer) (opts : ReadOptions) (ts : String) : List EventView :=
  if 0 < readStartSeq opts ∧ readStartSeq opts < (b.earliestRetainedSeq : Int) then
    [mkStaleWarning b ts]
  else []

/-- The effective scan start (line 937). -/
def readEffStart (b : Buffer) (opts : ReadOptions) : Int :=
  max (readStartSeq opts) (b.earliestRetainedSeq : Int)

/-- The initial running byte total (line 941). -/
def readInitBytes (b : Buffer) (opts : ReadOptions) (ts : String) : Nat :=
  (stringify (.arr ((readInitEvents b opts ts).map EventView.toJVal))).length

/-- The loop state `read` ends with. -/
def readLoopState (b : Buffer) (opts : ReadOptions) (ts : String) : LoopState :=
  readLoop opts (readEffLimit opts) (readEffMaxBytes opts) (readEffStart b opts) b.events
    { events := readInitEvents b opts ts, currentBytes := readInitBytes b opts ts,
      lastSeq := readEffStart b opts, hasMore := false, truncated := false }

/-- `read` in terms of the decomposition. -/
theorem read_eq (b : Buffer) (opts : ReadOptions) (ts : String) :
    read b opts ts =
      { cursor := encodeCursor (readLoopState b opts ts).lastSeq,
        has_more :=
          (if !(readLoopState b opts ts).hasMore && !b.events.isEmpty then
            match b.events.getLast? with
            | some last => decide ((readLoopState b opts ts).lastSeq < (last.seq : Int))
            | none => (readLoopState b opts ts).hasMore
          else (readLoopState b opts ts).hasMore),
        events := (readLoopState b opts ts).events,
        truncated := (readLoopState b opts ts).truncated } := rfl

/-- The scan loop only reads the filter and shape fields of the options. -/
theorem readLoop_congr (o1 o2 : ReadOptions) (hl : o1.levels = o2.levels)
    (hs : o1.sources = o2.sources) (hi : o1.includeStructured = o2.includeStructured)
    (eL eB eS : Int) :
    ∀ (es : List LogEvent) (st : LoopState),
    readLoop o1 eL eB eS es st = readLoop o2 eL eB eS es st := by
  intro es
  induction es with
  | nil => intro st; rfl
  | cons e rest ih =>
    intro st
    rw [readLoop, readLoop, hl, hs, hi]
    simp only [ih]

/-- Events at or before the effective start are skipped. -/
theorem readLoop_skip (opts : ReadOptions) (eL eB eS : Int) :
    ∀ (pre rest : List LogEvent) (st : LoopState),
    (∀ e ∈ pre, (e.seq : Int) ≤ eS) →
    readLoop opts eL eB eS (pre ++ rest) st = readLoop opts eL eB eS rest st := by
  intro pre
  induction pre with
  | nil => intro rest st _; rw [List.nil_append]
  | cons e p ih =>
    intro rest st h
    rw [List.cons_append, readLoop, if_pos (h e (List.mem_cons_self _ _))]
    exact ih rest st (fun x hx => h x (List.mem_cons_of_mem e hx))

/-- With no filters, enough item budget for `front`, and byte room at
every step across `front`, the loop admits exactly `front` and its last
sequence is `front`'s last event. -/
theorem readLoop_front (opts : ReadOptions) (hlv : opts.levels = none)
    (hsr : opts.sources = none) (eL eB eS : Int) :
    ∀ (front rest : List LogEvent) (st : LoopState),
    (∀ e ∈ front ++ rest, eS < (e.seq : Int)) →
    ((st.events.length : Int) + front.length = eL) →
    (∀ i < front.length, (st.currentBytes +
        ((front.take (i + 1)).map
          (fun e => viewSize (e.toJSON opts.includeStructured))).sum : Int) ≤ eB) →
    (readLoop opts eL eB eS (front ++ rest) st).events =
        st.events ++ front.map (fun e => e.toJSON opts.includeStructured) ∧
    (readLoop opts eL eB eS (front ++ rest) st).lastSeq =
        (match front.getLast? with
         | some e => (e.seq : Int)
         | none => st.lastSeq) := by
  intro front
  induction front with
  | nil =>
    intro rest st hseq hK _
    rw [List.nil_append]
    simp only [List.length_nil, Nat.cast_zero, add_zero] at hK
    cases rest with
    | nil => simp [readLoop]
    | cons r rs =>
      rw [readLoop]
      rw [if_neg (not_le.mpr (hseq r (by simp)))]
      rw [if_neg (by simp [hlv, levelPass])]
      rw [if_neg (by simp [hsr, sourcePass])]
      dsimp only
      by_cases hby : ((st.currentBytes : Int) +
          (viewSize (r.toJSON opts.includeStructured) : Int) > eB)
      · rw [if_pos hby]
        exact ⟨by simp, rfl⟩
      · rw [if_neg hby, if_pos (by omega : (st.events.length : Int) ≥ eL)]
        exact ⟨by simp, rfl⟩
  | cons f front' ih =>
    intro rest st hseq hK hbytes
    rw [List.cons_append, readLoop]
    rw [if_neg (not_le.mpr (hseq f (by simp)))]
    rw [if_neg (by simp [hlv, levelPass])]
    rw [if_neg (by simp [hsr, sourcePass])]
    dsimp only
    have hb0 := hbytes 0 (by simp)
    simp only [List.take_succ_cons, List.take_zero, List.map_cons, List.map_nil,
      List.sum_cons, List.sum_nil, add_zero] at hb0
    rw [if_neg (by omega :
      ¬((st.currentBytes : Int) + (viewSize (f.toJSON opts.includeStructured) : Int) > eB))]
    have hlen : (st.events.length : Int) < eL := by
      simp only [List.length_cons] at hK
      push_cast at hK ⊢
      omega
    rw [if_neg (not_le.mpr hlen)]
    have ihr := ih rest
      { st with
        events := st.events ++ [f.toJSON opts.includeStructured],
        currentBytes := st.currentBytes + viewSize (f.toJSON opts.includeStructured),
        lastSeq := (f.seq : Int) }
      (fun e he => hseq e (by
        rcases List.mem_append.mp he with h | h
        · exact List.mem_append.mpr (Or.inl (List.mem_cons_of_mem f h))
        · exact List.mem_append.mpr (Or.inr h)))
      (by
        simp only [List.length_append, List.length_singleton, List.length_cons,
          List.length_nil] at hK ⊢
        push_cast at hK ⊢
        omega)
      (by
        intro i hi
        have := hbytes (i + 1) (by simp only [List.length_cons]; omega)
        simp only [List.take_succ_cons, List.map_cons, List.sum_cons] at this
        dsimp only
        push_cast at this ⊢
        omega)
    refine ⟨?_, ?_⟩
    · rw [ihr.1]
      simp [List.append_assoc]
    · rw [ihr.2]
      cases front' with
      | nil => rfl
      | cons g gs =>
        rw [List.getLast?_cons_cons]
        cases hgl : (g :: gs).getLast? with
        | none => simp at hgl
        | some e => rfl

/-- The scan loop's result decomposed: the admitted events extend the
initial list in order, bytes grow by their view sizes, the result length
never exceeds the larger of the initial length and the limit, a nonempty
admission keeps the byte total within the cap, and `truncated` is raised
only together with `has_more` and only when some qualifying event would
have pushed the byte total past the cap. -/
theorem readLoop_spec (opts : ReadOptions) (eL eB eS : Int) :
    ∀ (es : List LogEvent) (st : LoopState), st.truncated = false →
    ∃ adm : List LogEvent,
      (readLoop opts eL eB eS es st).events
          = st.events ++ adm.map (fun e => e.toJSON opts.includeStructured) ∧
      (readLoop opts eL eB eS es st).currentBytes
          = st.currentBytes +
            (adm.map (fun e => viewSize (e.toJSON opts.includeStructured))).sum ∧
      (∀ e ∈ adm, e ∈ es ∧ eS < (e.seq : Int) ∧ levelPass opts.levels e = true ∧
        sourcePass opts.sources e = true) ∧
      ((readLoop opts eL eB eS es st).events.length : Int)
          ≤ max (st.events.length : Int) eL ∧
      (adm ≠ [] → ((readLoop opts eL eB eS es st).currentBytes : Int) ≤ eB) ∧
      ((readLoop opts eL eB eS es st).truncated = true →
        (readLoop opts eL eB eS es st).hasMore = true ∧
        ∃ e, e ∈ es ∧ eS < (e.seq : Int) ∧ levelPass opts.levels e = true ∧
          sourcePass opts.sources e = true ∧
          ((readLoop opts eL eB eS es st).currentBytes +
            (viewSize (e.toJSON opts.includeStructured) : Int) > eB)) := by
  intro es
  induction es with
  | nil =>
    intro st hst
    refine ⟨[], by simp [readLoop], by simp [readLoop], by simp, ?_, by simp, ?_⟩
    · simp only [readLoop]
      exact le_max_left _ _
    · intro htr
      rw [readLoop] at htr
      rw [hst] at htr
      exact absurd htr (by simp)
  | cons e rest ih =>
    intro st hst
    rw [readLoop]
    by_cases h1 : (e.seq : Int) ≤ eS
    · rw [if_pos h1]
      obtain ⟨adm, ha, hb, hc, hd, he, hf⟩ := ih st hst
      exact ⟨adm, ha, hb,
        fun x hx => ⟨List.mem_cons_of_mem e (hc x hx).1, (hc x hx).2⟩, hd, he,
        fun htr => ⟨(hf htr).1, by
          obtain ⟨w, hw1, hw2⟩ := (hf htr).2
          exact ⟨w, List.mem_cons_of_mem e hw1, hw2⟩⟩⟩
    · rw [if_neg h1]
      cases hlp : levelPass opts.levels e with
      | false =>
        rw [if_pos (by rfl : (!false) = true)]
        obtain ⟨adm, ha, hb, hc, hd, he, hf⟩ := ih st hst
        exact ⟨adm, ha, hb,
          fun x hx => ⟨List.mem_cons_of_mem e (hc x hx).1, (hc x hx).2⟩, hd, he,
          fun htr => ⟨(hf htr).1, by
            obtain ⟨w, hw1, hw2⟩ := (hf htr).2
            exact ⟨w, List.mem_cons_of_mem e hw1, hw2⟩⟩⟩
      | true =>
        rw [if_neg (by simp : ¬((!true) = true))]
        cases hsp : sourcePass opts.sources e with
        | false =>
          rw [if_pos (by rfl : (!false) = true)]
          obtain ⟨adm, ha, hb, hc, hd, he, hf⟩ := ih st hst
          exact ⟨adm, ha, hb,
            fun x hx => ⟨List.mem_cons_of_mem e (hc x hx).1, (hc x hx).2⟩, hd, he,
            fun htr => ⟨(hf htr).1, by
              obtain ⟨w, hw1, hw2⟩ := (hf htr).2
              exact ⟨w, List.mem_cons_of_mem e hw1, hw2⟩⟩⟩
        | true =>
          rw [if_neg (by simp : ¬((!true) = true))]
          dsimp only
          by_cases hby : ((st.currentBytes : Int) +
              (viewSize (e.toJSON opts.includeStructured) : Int) > eB)
          · rw [if_pos hby]
            refine ⟨[], by simp, by simp, by simp, ?_, by simp, ?_⟩
            · exact le_max_left _ _
            · intro _
              refine ⟨rfl, e, List.mem_cons_self _ _, by omega, hlp, hsp, ?_⟩
              dsimp only
              omega
          · rw [if_neg hby]
            by_cases hlim : ((st.events.length : Int) ≥ eL)
            · rw [if_pos hlim]
              refine ⟨[], by simp, by simp, by simp, le_max_left _ _, by simp, ?_⟩
              intro htr
              dsimp only at htr
              rw [hst] at htr
              exact absurd htr (by simp)
            · rw [if_neg hlim]
              obtain ⟨adm, ha, hb, hc, hd, he, hf⟩ := ih
                { st with
                  events := st.events ++ [e.toJSON opts.includeStructured],
                  currentBytes := st.currentBytes +
                    viewSize (e.toJSON opts.includeStructured),
                  lastSeq := (e.seq : Int) } hst
              refine ⟨e :: adm, ?_, ?_, ?_, ?_, ?_, ?_⟩
              · rw [ha]
                simp [List.append_assoc]
              · rw [hb]
                dsimp only
                simp only [List.map_cons, List.sum_cons]
                omega
              · intro x hx
                rcases List.mem_cons.mp hx with hx | hx
                · subst hx
                  exact ⟨List.mem_cons_self _ _, by omega, hlp, hsp⟩
                · exact ⟨List.mem_cons_of_mem e (hc x hx).1, (hc x hx).2⟩
              · refine le_trans hd ?_
                dsimp only
                simp only [List.length_append, List.length_singleton]
                push_cast
                rw [max_le_iff]
                constructor
                · have : (st.events.length : Int) + 1 ≤ eL := by omega
                  exact le_trans this (le_max_right _ _)
                · exact le_max_right _ _
              · intro _
                rcases List.eq_nil_or_concat adm with hadm | ⟨as, a, hadm⟩
                · subst hadm
                  rw [hb]
                  dsimp only
                  simp only [List.map_nil, List.sum_nil, add_zero]
                  omega
                · exact he (by simp [hadm])
              · intro htr
                refine ⟨(hf htr).1, ?_⟩
                obtain ⟨w, hw1, hw2⟩ := (hf htr).2
                exact ⟨w, List.mem_cons_of_mem e hw1, hw2⟩

/-- A full-batch read: when the retained list splits into a skipped
prefix, a block exactly filling the effective limit, and a remainder,
and every admission fits the byte cap, the result is the block's views
and the returned cursor encodes the block's last sequence. -/
theorem read_batch (b : Buffer) (opts : ReadOptions) (ts : String)
    (pre front rest : List LogEvent)
    (hsplit : b.events = pre ++ (front ++ rest))
    (hlv : opts.levels = none) (hsr : opts.sources = none)
    (hini : readInitEvents b opts ts = [])
    (hpre : ∀ e ∈ pre, (e.seq : Int) ≤ readEffStart b opts)
    (hpost : ∀ e ∈ front ++ rest, readEffStart b opts < (e.seq : Int))
    (hflen : (front.length : Int) = readEffLimit opts)
    (hby : ∀ i < front.length, ((readInitBytes b opts ts : Int) +
        ((front.take (i + 1)).map
          (fun e => viewSize (e.toJSON opts.includeStructured))).sum
          ≤ readEffMaxBytes opts)) :
    (read b opts ts).events = front.map (fun e => e.toJSON opts.includeStructured) ∧
    (∀ e5, front.getLast? = some e5 →
      (read b opts ts).cursor = encodeCursor (e5.seq : Int)) := by
  have hloop : readLoopState b opts ts =
      readLoop opts (readEffLimit opts) (readEffMaxBytes opts) (readEffStart b opts)
        (front ++ rest)
        { events := readInitEvents b opts ts, currentBytes := readInitBytes b opts ts,
          lastSeq := readEffStart b opts, hasMore := false, truncated := false } := by
    rw [readLoopState, hsplit, readLoop_skip _ _ _ _ pre (front ++ rest) _ hpre]
  have hfr := readLoop_front opts hlv hsr (readEffLimit opts) (readEffMaxBytes opts)
    (readEffStart b opts) front rest
    { events := readInitEvents b opts ts, currentBytes := readInitBytes b opts ts,
      lastSeq := readEffStart b opts, hasMore := false, truncated := false }
    hpost
    (by
      dsimp only
      rw [hini]
      simpa using hflen)
    (by
      intro i hi
      have := hby i hi
      dsimp only
      push_cast at this ⊢
      omega)
  constructor
  · rw [read_eq]
    show (readLoopState b opts ts).events = _
    rw [hloop, hfr.1, hini, List.nil_append]
  · intro e5 hg
    rw [read_eq]
    show encodeCursor (readLoopState b opts ts).lastSeq = _
    rw [hloop, hfr.2, hg]

/-- C5 (amended): two five-event pages from a buffer whose retained
events all lie strictly after `earliestRetainedSeq`. -/
theorem claim_C5 (b : Buffer) (opts : ReadOptions) (ts ts2 : String)
    (hcur : opts.cursor = none) (hlim : opts.limit = 5)
    (hlv : opts.levels = none) (hsr : opts.sources = none)
    (hmb : opts.maxBytes = 256000) (hinc : opts.includeStructured = true)
    (hlen : 10 < b.events.length)
    (hchain : b.events.Chain' (fun a c => a.seq < c.seq))
    (hearl : ∀ e ∈ b.events, b.earliestRetainedSeq < e.seq)
    (hbytes : ∀ i < 10, 2 +
      (((b.events.take (i + 1)).map (fun e => viewSize (e.toJSON true))).sum) ≤ 256000) :
    (read b opts ts).events = (b.events.take 5).map (fun e => e.toJSON true) ∧
    (read b { opts with cursor := some (read b opts ts).cursor } ts2).events =
      ((b.events.drop 5).take 5).map (fun e => e.toJSON true) := by
  haveI : IsTrans LogEvent (fun a c => a.seq < c.seq) :=
    ⟨fun _ _ _ h1 h2 => lt_trans h1 h2⟩
  have hP : b.events.Pairwise (fun a c => a.seq < c.seq) := List.chain'_iff_pairwise.mp hchain
  have hPg := List.pairwise_iff_getElem.mp hP
  have h4 : 4 < b.events.length := by omega
  have hss1 : readStartSeq opts = 0 := by
    rw [readStartSeq, hcur]
  have hini1 : readInitEvents b opts ts = [] := by
    rw [readInitEvents, hss1, if_neg (by simp)]
  have heff1 : readEffStart b opts = (b.earliestRetainedSeq : Int) := by
    rw [readEffStart, hss1]
    exact max_eq_right (Int.natCast_nonneg _)
  have hIB1 : readInitBytes b opts ts = 2 := by
    rw [readInitBytes, hini1]
    rfl
  have hEL : readEffLimit opts = 5 := by
    rw [readEffLimit, hlim]
    decide
  have hEB : readEffMaxBytes opts = 256000 := by
    rw [readEffMaxBytes, hmb]
    decide
  have hsplit1 : b.events = [] ++ (b.events.take 5 ++ b.events.drop 5) := by
    rw [List.nil_append, List.take_append_drop]
  have hflen5 : (b.events.take 5).length = 5 := by
    rw [List.length_take]
    omega
  have hgl1 : (b.events.take 5).getLast? = some (b.events[4]) := by
    rw [List.getLast?_eq_getElem?, hflen5]
    rw [show (5 : Nat) - 1 = 4 from rfl,
      List.getElem?_eq_getElem (by rw [hflen5]; omega)]
    rw [List.getElem_take]
  have hseqle : ∀ e ∈ b.events.take 5, (e.seq : Int) ≤ ((b.events[4]).seq : Int) := by
    intro e he
    obtain ⟨i, hi, hie⟩ := List.mem_iff_getElem.mp he
    rw [List.length_take] at hi
    rw [List.getElem_take] at hie
    subst hie
    rcases Nat.lt_or_ge i 4 with hlt | hge
    · exact_mod_cast le_of_lt (hPg i 4 (by omega) h4 hlt)
    · have hi4 : i = 4 := by omega
      subst hi4
      exact le_refl _
  have hseqgt : ∀ e ∈ b.events.drop 5, ((b.events[4]).seq : Int) < (e.seq : Int) := by
    intro e he
    obtain ⟨j, hj, hje⟩ := List.mem_iff_getElem.mp he
    rw [List.length_drop] at hj
    rw [List.getElem_drop] at hje
    subst hje
    exact_mod_cast hPg 4 (5 + j) h4 (by omega) (by omega)
  have hb1 := read_batch b opts ts [] (b.events.take 5) (b.events.drop 5) hsplit1 hlv hsr
    hini1
    (by intro e he; simp at he)
    (by
      intro e he
      rw [heff1]
      rw [List.take_append_drop] at he
      exact_mod_cast hearl e he)
    (by rw [hEL]; exact_mod_cast hflen5)
    (by
      intro i hi
      rw [hIB1, hEB]
      rw [hflen5] at hi
      rw [List.take_take, min_eq_left (by omega : i + 1 ≤ 5), hinc]
      have := hbytes i (by omega)
      exact_mod_cast this)
  refine ⟨by rw [hb1.1, hinc], ?_⟩
  have hcur1 : (read b opts ts).cursor = encodeCursor ((b.events[4]).seq : Int) :=
    hb1.2 _ hgl1
  have hearl5 : b.earliestRetainedSeq < (b.events[4]).seq := hearl _ (List.getElem_mem h4)
  have hss2 : readStartSeq { opts with cursor := some (read b opts ts).cursor } =
      ((b.events[4]).seq : Int) := by
    rw [readStartSeq]
    dsimp only
    rw [hcur1, if_pos (encodeCursor_ne_empty _), decodeCursor,
      decode_encode ((b.events[4]).seq)]
    rfl
  have hini2 : readInitEvents b { opts with cursor := some (read b opts ts).cursor } ts2
      = [] := by
    rw [readInitEvents, hss2, if_neg ?_]
    rintro ⟨-, hcon⟩
    have hlt : (b.earliestRetainedSeq : Int) < ((b.events[4]).seq : Int) := by
      exact_mod_cast hearl5
    omega
  have heff2 : readEffStart b { opts with cursor := some (read b opts ts).cursor } =
      ((b.events[4]).seq : Int) := by
    rw [readEffStart, hss2]
    exact max_eq_left (by exact_mod_cast le_of_lt hearl5)
  have hIB2 : readInitBytes b { opts with cursor := some (read b opts ts).cursor } ts2
      = 2 := by
    rw [readInitBytes, hini2]
    rfl
  have hEL2 : readEffLimit { opts with cursor := some (read b opts ts).cursor } = 5 := by
    rw [readEffLimit]
    dsimp only
    rw [hlim]
    decide
  have hEB2 : readEffMaxBytes { opts with cursor := some (read b opts ts).cursor }
      = 256000 := by
    rw [readEffMaxBytes]
    dsimp only
    rw [hmb]
    decide
  have hsplit2 : b.events = b.events.take 5 ++
      ((b.events.drop 5).take 5 ++ (b.events.drop 5).drop 5) := by
    rw [List.take_append_drop, List.take_append_drop]
  have hflen2 : ((b.events.drop 5).take 5).length = 5 := by
    rw [List.length_take, List.length_drop]
    omega
  have hb2 := read_batch b { opts with cursor := some (read b opts ts).cursor } ts2
    (b.events.take 5) ((b.events.drop 5).take 5) ((b.events.drop 5).drop 5) hsplit2
    hlv hsr hini2
    (by
      intro e he
      rw [heff2]
      exact hseqle e he)
    (by
      intro e he
      rw [heff2]
      rw [List.take_append_drop] at he
      exact hseqgt e he)
    (by rw [hEL2]; exact_mod_cast hflen2)
    (by
      intro i hi
      rw [hIB2, hEB2]
      rw [hflen2] at hi
      rw [List.take_take, min_eq_left (by omega : i + 1 ≤ 5)]
      dsimp only
      rw [hinc]
      have h10 := hbytes (5 + i) (by omega)
      rw [show 5 + i + 1 = 5 + (i + 1) from by omega] at h10
      rw [List.take_add, List.map_append, List.sum_append] at h10
      have hN : 2 + (((b.events.drop 5).take (i + 1)).map
          (fun e => viewSize (e.toJSON true))).sum ≤ 256000 := by omega
      exact_mod_cast hN)
  rw [hb2.1]
  dsimp only
  rw [hinc]

/-- C4 (amended): a read whose decoded cursor is strictly positive and
points strictly below the earliest retained sequence starts with exactly
one synthetic warning whose level, source and message are the
stale-cursor ones, and every further returned event is the view of a
stored event strictly after the earliest retained sequence (the scan
resumes there; the warning is built on the fly and taken from no stored
event).  The positivity condition is the `startSeq > 0` guard of the
source; without it the claim fails (see the counterexample). -/
theorem claim_C4 (b : Buffer) (opts : ReadOptions) (ts : String) (c : String)
    (hc : opts.cursor = some c) (hne : c ≠ "")
    (hpos : 0 < decodeCursor c) (hstale : decodeCursor c < (b.earliestRetainedSeq : Int)) :
    ∃ tail, (read b opts ts).events = mkStaleWarning b ts :: tail ∧
      (mkStaleWarning b ts).level = "warn" ∧
      (mkStaleWarning b ts).source = "log_buffer" ∧
      (mkStaleWarning b ts).message =
        "Cursor pointed to dropped data. " ++ natStr b.droppedCount ++
          " events were dropped due to retention policy. Resuming from earliest retained event." ∧
      ∀ v ∈ tail, ∃ e, e ∈ b.events ∧ (b.earliestRetainedSeq : Int) < (e.seq : Int) ∧
        v = e.toJSON opts.includeStructured := by
  have hss : readStartSeq opts = decodeCursor c := by
    rw [readStartSeq, hc]
    simp only
    rw [if_pos hne]
  have hini : readInitEvents b opts ts = [mkStaleWarning b ts] := by
    rw [readInitEvents, if_pos (by rw [hss]; exact ⟨hpos, hstale⟩)]
  have heff : readEffStart b opts = (b.earliestRetainedSeq : Int) := by
    rw [readEffStart, hss]
    exact max_eq_right (le_of_lt hstale)
  obtain ⟨adm, ha, hbb, hcc, hd, he, hf⟩ := readLoop_spec opts (readEffLimit opts)
    (readEffMaxBytes opts) (readEffStart b opts) b.events
    { events := readInitEvents b opts ts, currentBytes := readInitBytes b opts ts,
      lastSeq := readEffStart b opts, hasMore := false, truncated := false } rfl
  refine ⟨adm.map (fun e => e.toJSON opts.includeStructured), ?_, rfl, rfl, rfl, ?_⟩
  · rw [read_eq]
    show (readLoopState b opts ts).events = _
    rw [readLoopState, ha]
    dsimp only
    rw [hini]
    rfl
  · intro v hv
    obtain ⟨e, hemem, rfl⟩ := List.mem_map.mp hv
    obtain ⟨hm, hlt, -, -⟩ := hcc e hemem
    rw [heff] at hlt
    exact ⟨e, hm, hlt, rfl⟩

/-- C9: the synthetic stale-cursor warning is charged against both caps
of the same read: the stored events accompanying it number at most the
effective limit minus one, and when any stored event is admitted the
serialized warning's bytes count toward the byte-cap total. -/
theorem claim_C9 (b : Buffer) (opts : ReadOptions) (ts : String) (c : String)
    (hc : opts.cursor = some c) (hne : c ≠ "")
    (hpos : 0 < decodeCursor c) (hstale : decodeCursor c < (b.earliestRetainedSeq : Int)) :
    ∃ tail, (read b opts ts).events = mkStaleWarning b ts :: tail ∧
      (tail.length : Int) ≤ min (max 1 opts.limit) 1000 - 1 ∧
      (tail ≠ [] →
        ((stringify (.arr [(mkStaleWarning b ts).toJVal])).length : Int) +
          ((tail.map viewSize).sum : Int) ≤ min (max 1000 opts.maxBytes) 1000000) := by
  have hss : readStartSeq opts = decodeCursor c := by
    rw [readStartSeq, hc]
    simp only
    rw [if_pos hne]
  have hini : readInitEvents b opts ts = [mkStaleWarning b ts] := by
    rw [readInitEvents, if_pos (by rw [hss]; exact ⟨hpos, hstale⟩)]
  have hIB : readInitBytes b opts ts =
      (stringify (.arr [(mkStaleWarning b ts).toJVal])).length := by
    rw [readInitBytes, hini]
    rfl
  obtain ⟨adm, ha, hbb, hcc, hd, he, hf⟩ := readLoop_spec opts (readEffLimit opts)
    (readEffMaxBytes opts) (readEffStart b opts) b.events
    { events := readInitEvents b opts ts, currentBytes := readInitBytes b opts ts,
      lastSeq := readEffStart b opts, hasMore := false, truncated := false } rfl
  have hev : (read b opts ts).events =
      mkStaleWarning b ts :: adm.map (fun e => e.toJSON opts.includeStructured) := by
    rw [read_eq]
    show (readLoopState b opts ts).events = _
    rw [readLoopState, ha]
    dsimp only
    rw [hini]
    rfl
  have hone : (1 : Int) ≤ readEffLimit opts := by
    rw [readEffLimit]
    rcases le_total (1 : Int) opts.limit with h | h
    · rw [max_eq_right h]
      rcases le_total opts.limit 1000 with h2 | h2
      · rw [min_eq_left h2]
        exact h
      · rw [min_eq_right h2]
        omega
    · rw [max_eq_left h, min_eq_left (by omega : (1 : Int) ≤ 1000)]
  refine ⟨adm.map (fun e => e.toJSON opts.includeStructured), hev, ?_, ?_⟩
  · have h1 : ((read b opts ts).events.length : Int)
        ≤ max ((readInitEvents b opts ts).length : Int) (readEffLimit opts) := by
      rw [read_eq]
      show ((readLoopState b opts ts).events.length : Int) ≤ _
      rw [readLoopState]
      exact hd
    rw [hini, hev] at h1
    have h2 : ((mkStaleWarning b ts ::
        adm.map (fun e => e.toJSON opts.includeStructured)).length : Int)
        ≤ readEffLimit opts :=
      le_trans h1 (max_le
        (by simp only [List.length_singleton, Nat.cast_one]; exact hone) le_rfl)
    show _ ≤ readEffLimit opts - 1
    simp only [List.length_cons] at h2
    push_cast at h2 ⊢
    omega
  · intro hne2
    have hadm : adm ≠ [] := by
      intro h0
      rw [h0] at hne2
      simp at hne2
    have hle := he hadm
    rw [hbb] at hle
    dsimp only at hle
    rw [hIB] at hle
    have hmm : (adm.map (fun e => viewSize (e.toJSON opts.includeStructured))).sum
        = ((adm.map (fun e => e.toJSON opts.includeStructured)).map viewSize).sum := by
      rw [List.map_map]
      rfl
    rw [hmm] at hle
    show _ + _ ≤ readEffMaxBytes opts
    push_cast at hle ⊢
    omega

/-- C6: option defaults are 200 items and 256000 bytes; the result never
exceeds the effective item limit `min(max(1,limit),1000)`; `truncated`
implies `has_more`; `truncated` is raised only because some qualifying
event would have pushed the byte total past the effective cap
`min(max(1000,maxBytes),1000000)`; and the byte cap is checked before
the item limit (an over-cap event truncates the scan regardless of the
item limit). -/
theorem claim_C6 (b : Buffer) (opts : ReadOptions) (ts : String) :
    ({} : ReadOptions).limit = 200 ∧ ({} : ReadOptions).maxBytes = 256000 ∧
    ((read b opts ts).events.length : Int) ≤ min (max 1 opts.limit) 1000 ∧
    ((read b opts ts).truncated = true → (read b opts ts).has_more = true) ∧
    ((read b opts ts).truncated = true →
      ∃ e, e ∈ b.events ∧ readEffStart b opts < (e.seq : Int) ∧
        levelPass opts.levels e = true ∧ sourcePass opts.sources e = true ∧
        (((readLoopState b opts ts).currentBytes : Int) +
          (viewSize (e.toJSON opts.includeStructured) : Int)
            > min (max 1000 opts.maxBytes) 1000000)) ∧
    (∀ (eL2 eB2 eS2 : Int) (e : LogEvent) (rest : List LogEvent) (st : LoopState),
      eS2 < (e.seq : Int) → levelPass opts.levels e = true →
      sourcePass opts.sources e = true →
      ((st.currentBytes : Int) + (viewSize (e.toJSON opts.includeStructured) : Int) > eB2) →
      readLoop opts eL2 eB2 eS2 (e :: rest) st =
        { st with truncated := true, hasMore := true }) := by
  obtain ⟨adm, ha, hbb, hcc, hd, he, hf⟩ := readLoop_spec opts (readEffLimit opts)
    (readEffMaxBytes opts) (readEffStart b opts) b.events
    { events := readInitEvents b opts ts, currentBytes := readInitBytes b opts ts,
      lastSeq := readEffStart b opts, hasMore := false, truncated := false } rfl
  have hone : (1 : Int) ≤ readEffLimit opts := by
    rw [readEffLimit]
    rcases le_total (1 : Int) opts.limit with h | h
    · rw [max_eq_right h]
      rcases le_total opts.limit 1000 with h2 | h2
      · rw [min_eq_left h2]
        exact h
      · rw [min_eq_right h2]
        omega
    · rw [max_eq_left h, min_eq_left (by omega : (1 : Int) ≤ 1000)]
  have hinil : ((readInitEvents b opts ts).length : Int) ≤ 1 := by
    rw [readInitEvents]
    split
    · simp
    · simp
  refine ⟨rfl, rfl, ?_, ?_, ?_, ?_⟩
  · show _ ≤ readEffLimit opts
    have h1 : ((read b opts ts).events.length : Int)
        ≤ max ((readInitEvents b opts ts).length : Int) (readEffLimit opts) := by
      rw [read_eq]
      show ((readLoopState b opts ts).events.length : Int) ≤ _
      rw [readLoopState]
      exact hd
    exact le_trans h1 (max_le (le_trans hinil hone) le_rfl)
  · intro htr
    rw [read_eq] at htr
    have htr' : (readLoop opts (readEffLimit opts) (readEffMaxBytes opts)
        (readEffStart b opts) b.events
        { events := readInitEvents b opts ts, currentBytes := readInitBytes b opts ts,
          lastSeq := readEffStart b opts, hasMore := false,
          truncated := false }).truncated = true := by
      rw [← readLoopState]
      exact htr
    have hm := (hf htr').1
    rw [read_eq]
    show (if !(readLoopState b opts ts).hasMore && !b.events.isEmpty then _ else _) = true
    rw [readLoopState, hm]
    simp
  · intro htr
    rw [read_eq] at htr
    have htr' : (readLoop opts (readEffLimit opts) (readEffMaxBytes opts)
        (readEffStart b opts) b.events
        { events := readInitEvents b opts ts, currentBytes := readInitBytes b opts ts,
          lastSeq := readEffStart b opts, hasMore := false,
          truncated := false }).truncated = true := by
      rw [← readLoopState]
      exact htr
    obtain ⟨e, hm, hlt, hlp, hsp, hby⟩ := (hf htr').2
    refine ⟨e, hm, hlt, hlp, hsp, ?_⟩
    show ((readLoopState b opts ts).currentBytes : Int) + _ > readEffMaxBytes opts
    rw [readLoopState]
    exact hby
  · intro eL2 eB2 eS2 e rest st h1 h2 h3 h4
    rw [readLoop, if_neg (not_le.mpr h1),
      if_neg (by rw [h2]; simp : ¬((!levelPass opts.levels e) = true)),
      if_neg (by rw [h3]; simp : ¬((!sourcePass opts.sources e) = true))]
    dsimp only
    rw [if_pos h4]

/-- C8: decoding is total — every undecodable cursor string falls back
to sequence `0`, and a read with such a cursor returns exactly what a
cursorless read returns. -/
theorem claim_C8 (b : Buffer) (opts : ReadOptions) (ts : String) (c : String)
    (h : decodeCursorOpt c = none) :
    decodeCursor c = 0 ∧
    read b { opts with cursor := some c } ts = read b { opts with cursor := none } ts := by
  have hd : decodeCursor c = 0 := by
    rw [decodeCursor, h]
    rfl
  refine ⟨hd, ?_⟩
  have h0 : readStartSeq { opts with cursor := some c } =
      readStartSeq { opts with cursor := none } := by
    rw [readStartSeq, readStartSeq]
    dsimp only
    by_cases hc : c = ""
    · rw [if_neg (by simp [hc])]
    · rw [if_pos hc, hd]
  have h1 : readEffStart b { opts with cursor := some c } =
      readEffStart b { opts with cursor := none } := by
    rw [readEffStart, readEffStart, h0]
  have h2 : readInitEvents b { opts with cursor := some c } ts =
      readInitEvents b { opts with cursor := none } ts := by
    rw [readInitEvents, readInitEvents, h0]
  have h3 : readInitBytes b { opts with cursor := some c } ts =
      readInitBytes b { opts with cursor := none } ts := by
    rw [readInitBytes, readInitBytes, h2]
  have h6 : readLoopState b { opts with cursor := some c } ts =
      readLoopState b { opts with cursor := none } ts := by
    rw [readLoopState, readLoopState, h1, h2, h3,
      show readEffLimit { opts with cursor := some c }
        = readEffLimit { opts with cursor := none } from rfl,
      show readEffMaxBytes { opts with cursor := some c }
        = readEffMaxBytes { opts with cursor := none } from rfl]
    exact readLoop_congr { opts with cursor := some c } { opts with cursor := none }
      rfl rfl rfl _ _ _ _ _
  rw [read_eq, read_eq, h6]

/-! ### Concrete instances -/

/-- A buffer capped at 11 events after 12 appends: one event evicted. -/
def cexBufC5 : Buffer :=
  runAppends (Buffer.init ⟨11, 10485760⟩)
    ((List.range 12).map fun k => ⟨"T", "info", "s", natStr (k + 1), JVal.null⟩)

/-- An uncapped buffer holding the same 12 events, none evicted. -/
def wBufC5 : Buffer :=
  runAppends (Buffer.init ⟨100, 10485760⟩)
    ((List.range 12).map fun k => ⟨"T", "info", "s", natStr (k + 1), JVal.null⟩)

/-- The `read` options of the C5 scenario: limit 5, everything else
default. -/
def optsC5 : ReadOptions := ⟨none, 5, 256000, none, none, true⟩

/-- C5 (counterexample): after an eviction, the first read page is NOT
the first five retained events — the scan skips the first retained event
(whose sequence ties `earliestRetainedSeq`) and returns events 2-6 of
the retained list. -/
theorem claim_C5_counterexample :
    10 < cexBufC5.events.length ∧
    cexBufC5.events.map (fun e => e.message) =
      ["2", "3", "4", "5", "6", "7", "8", "9", "10", "11", "12"] ∧
    (read cexBufC5 optsC5 "T").events.map (fun v => v.message) =
      ["3", "4", "5", "6", "7"] ∧
    (read cexBufC5 optsC5 "T").events ≠
      (cexBufC5.events.take 5).map (fun e => e.toJSON true) := by
  refine ⟨by decide, by decide, by decide, ?_⟩
  intro hcon
  have h1 := congrArg (List.map (fun v : EventView => v.message)) hcon
  exact absurd h1 (by decide)

/-- A two-event cap: three appends leave events 2-3 retained, one
dropped, `earliestRetainedSeq = 2`. -/
def staleBuf : Buffer :=
  runAppends (Buffer.init ⟨2, 10485760⟩)
    ((List.range 3).map fun k => ⟨"T", "info", "s", natStr (k + 1), JVal.null⟩)

/-- Read options carrying a cursor for the evicted sequence 1. -/
def staleOpts : ReadOptions := ⟨some (encodeCursor 1), 200, 256000, none, none, true⟩

/-- A Boolean check of strictly increasing sequence numbers. -/
def seqChainCheck : List LogEvent → Bool
  | [] => true
  | [_] => true
  | a :: b :: r => decide (a.seq < b.seq) && seqChainCheck (b :: r)

theorem chain'_of_check : ∀ l : List LogEvent, seqChainCheck l = true →
    l.Chain' (fun a c => a.seq < c.seq) := by
  intro l
  induction l with
  | nil => intro h; exact List.chain'_nil
  | cons a r ih =>
    cases r with
    | nil => intro h; exact List.chain'_singleton a
    | cons b r2 =>
      intro h
      rw [seqChainCheck, Bool.and_eq_true, decide_eq_true_eq] at h
      exact List.chain'_cons.mpr ⟨h.1, ih h.2⟩

theorem claim_C5_witness :
    (read wBufC5 optsC5 "T").events =
      (wBufC5.events.take 5).map (fun e => e.toJSON true) ∧
    (read wBufC5 { optsC5 with cursor := some (read wBufC5 optsC5 "T").cursor } "T2").events =
      ((wBufC5.events.drop 5).take 5).map (fun e => e.toJSON true) :=
  claim_C5 wBufC5 optsC5 "T" "T2" rfl rfl rfl rfl rfl rfl (by decide)
    (chain'_of_check _ (by decide)) (by decide) (by decide)

/-- Read options carrying a cursor that decodes to sequence 0. -/
def opts0C4 : ReadOptions := ⟨some (encodeCursor 0), 200, 256000, none, none, true⟩

/-- C4 (counterexample to the unguarded claim): a cursor decoding to 0 —
as `encodeCursor 0`, the very cursor a fresh-buffer read hands out — read
against a buffer whose earliest retained sequence is positive satisfies
`decoded cursor < earliest_retained_sequence`, yet the returned events
carry no synthetic warning: the `startSeq > 0` guard suppresses it. -/
theorem claim_C4_counterexample :
    decodeCursor (encodeCursor 0) = 0 ∧
    (0 : Int) < (staleBuf.earliestRetainedSeq : Int) ∧
    (read staleBuf opts0C4 "T6").events.map (fun v => v.level) = ["info"] ∧
    (mkStaleWarning staleBuf "T6").level = "warn" ∧
    ∀ tail, (read staleBuf opts0C4 "T6").events ≠ mkStaleWarning staleBuf "T6" :: tail := by
  refine ⟨by decide, by decide, by decide, by decide, ?_⟩
  intro tail hcon
  have h1 := congrArg (List.map (fun v : EventView => v.level)) hcon
  rw [List.map_cons,
    show (read staleBuf opts0C4 "T6").events.map (fun v : EventView => v.level)
      = ["info"] from by decide] at h1
  injection h1 with h1a h1b
  exact absurd h1a (by decide)

theorem claim_C4_witness :
    ∃ tail, (read staleBuf staleOpts "T2").events = mkStaleWarning staleBuf "T2" :: tail ∧
      (mkStaleWarning staleBuf "T2").level = "warn" ∧
      (mkStaleWarning staleBuf "T2").source = "log_buffer" ∧
      (mkStaleWarning staleBuf "T2").message =
        "Cursor pointed to dropped data. " ++ natStr staleBuf.droppedCount ++
          " events were dropped due to retention policy. Resuming from earliest retained event." ∧
      ∀ v ∈ tail, ∃ e, e ∈ staleBuf.events ∧
        (staleBuf.earliestRetainedSeq : Int) < (e.seq : Int) ∧
        v = e.toJSON staleOpts.includeStructured :=
  claim_C4 staleBuf staleOpts "T2" (encodeCursor 1) rfl (by decide) (by decide) (by decide)

theorem claim_C9_witness :
    ∃ tail, (read staleBuf staleOpts "T3").events = mkStaleWarning staleBuf "T3" :: tail ∧
      (tail.length : Int) ≤ min (max 1 staleOpts.limit) 1000 - 1 ∧
      (tail ≠ [] →
        ((stringify (.arr [(mkStaleWarning staleBuf "T3").toJVal])).length : Int) +
          ((tail.map viewSize).sum : Int) ≤ min (max 1000 staleOpts.maxBytes) 1000000) :=
  claim_C9 staleBuf staleOpts "T3" (encodeCursor 1) rfl (by decide) (by decide) (by decide)

theorem claim_C6_witness :
    ({} : ReadOptions).limit = 200 ∧ ({} : ReadOptions).maxBytes = 256000 ∧
    ((read wBufC5 optsC5 "T4").events.length : Int) ≤ min (max 1 optsC5.limit) 1000 ∧
    ((read wBufC5 optsC5 "T4").truncated = true →
      (read wBufC5 optsC5 "T4").has_more = true) ∧
    ((read wBufC5 optsC5 "T4").truncated = true →
      ∃ e, e ∈ wBufC5.events ∧ readEffStart wBufC5 optsC5 < (e.seq : Int) ∧
        levelPass optsC5.levels e = true ∧ sourcePass optsC5.sources e = true ∧
        (((readLoopState wBufC5 optsC5 "T4").currentBytes : Int) +
          (viewSize (e.toJSON optsC5.includeStructured) : Int)
            > min (max 1000 optsC5.maxBytes) 1000000)) ∧
    (∀ (eL2 eB2 eS2 : Int) (e : LogEvent) (rest : List LogEvent) (st : LoopState),
      eS2 < (e.seq : Int) → levelPass optsC5.levels e = true →
      sourcePass optsC5.sources e = true →
      ((st.currentBytes : Int) + (viewSize (e.toJSON optsC5.includeStructured) : Int) > eB2) →
      readLoop optsC5 eL2 eB2 eS2 (e :: rest) st =
        { st with truncated := true, hasMore := true }) :=
  claim_C6 wBufC5 optsC5 "T4"

theorem claim_C8_witness :
    decodeCursor "!!" = 0 ∧
    read wBufC5 { optsC5 with cursor := some "!!" } "T5" =
      read wBufC5 { optsC5 with cursor := none } "T5" :=
  claim_C8 wBufC5 optsC5 "T5" "!!" (by decide)

end LogBufferModel
